import Mathlib

/-!
# Shallow embedding of the stdx open-addressing hashtable and arena allocator

This file embeds, in Lean, the two modules of the `stdx` C library that the
specification covers:

* the generic open-addressing hashtable (`x_hashtable_*` in
  `stdx_hashtable.h`), with linear probing, a 0.75 load-factor
  capacity-doubling rehash, and naive (non-shifting) deletion; and
* the arena allocator (`x_arena_*` in `stdx_arena.h`), a chunk-chain bump
  allocator.

Modelling conventions:

* A slot (`XHashEntry`) is `Option (K × V)`: `none` is an unoccupied slot
  (`occupied == false`), `some (k, v)` an occupied slot holding key block `k`
  and value block `v`.  The C table stores fixed-size byte blocks behind
  `void*` pointers; the embedding abstracts the byte blocks to values of type
  parameters `K` and `V`, so `key_size`/`value_size` and the allocator fields
  disappear (allocation of key/value blocks always succeeds in the model, and
  `stdx_free` calls are tracked where a claim mentions them).
* `hash_fn` and `eq_fn` are stored in the table structure, exactly as in the
  C `XHashtable` struct.  `size_t` hashes become `Nat`; `% capacity` is
  faithful because both are nonnegative.
* The load-factor test `(double)count / capacity >= 0.75` is embedded as
  `3 * capacity ≤ 4 * count`.  For every state the library can reach the
  capacity is a power of two (16, 32, 64, ...), so `count / capacity` is an
  exact double and the two tests agree.
* The probe loop of `probe_index` and the `set`/`rehash` mutual recursion are
  general recursion in C; they are embedded with an explicit fuel parameter.
  The fuel is chosen so that it is never exhausted on the states the claims
  are about (a probe visits at most `capacity` slots, and a rehash triggered
  with fewer occupied entries than slots never triggers a nested rehash);
  the termination claims prove exactly this.
-/

set_option linter.unusedVariables false

namespace Stdx

/-- A hashtable slot: `none` for `occupied == false`, `some (key, value)` for
an occupied slot (`XHashEntry`). -/
abbrev Slot (K V : Type) := Option (K × V)

/-- `slotAt e i` is `e[i]`, reading `none` out of range (the C code never
reads out of range on valid tables; `entries` always has length
`capacity`). -/
def slotAt {K V : Type} : List (Slot K V) → Nat → Slot K V
  | [], _ => none
  | s :: _, 0 => s
  | _ :: rest, i + 1 => slotAt rest i

/-- Number of occupied slots in an entries array. -/
def occCount {K V : Type} : List (Slot K V) → Nat
  | [] => 0
  | none :: rest => occCount rest
  | some _ :: rest => occCount rest + 1

/-- The `XHashtable` struct.  `key_size`, `value_size` and the allocator are
abstracted away (see the module docstring); `hash_fn` and `eq_fn` are kept as
fields, as in the C struct. -/
structure XHashtable (K V : Type) where
  count : Nat
  capacity : Nat
  entries : List (Slot K V)
  hash_fn : K → Nat
  eq_fn : K → K → Bool

/-- `x_hashtable_create_ex` with `INITIAL_CAPACITY = 16`: an all-unoccupied
entries array of length 16 and `count = 0`. -/
def x_hashtable_create {K V : Type} (hash_fn : K → Nat) (eq_fn : K → K → Bool) :
    XHashtable K V :=
  { count := 0
    capacity := 16
    entries := List.replicate 16 none
    hash_fn := hash_fn
    eq_fn := eq_fn }

/-- The body of the `while (table->entries[idx].occupied)` loop of
`probe_index`, with an explicit fuel bound on the number of iterations.
Each step: an unoccupied slot ends the search (`found = false`, returning the
index of the hole); a matching occupied slot ends it (`found = true`);
otherwise the index advances by one modulo `capacity`, and if it returns to
`start` the loop breaks (`found = false`, index = `start`). -/
def probeAux {K V : Type} (e : List (Slot K V)) (cap start : Nat)
    (ef : K → K → Bool) (k : K) : Nat → Nat → Bool × Nat
  | 0, idx => (false, idx)
  | fuel + 1, idx =>
    match slotAt e idx with
    | none => (false, idx)
    | some p =>
      if ef k p.1 then (true, idx)
      else
        if (idx + 1) % cap = start then (false, (idx + 1) % cap)
        else probeAux e cap start ef k fuel ((idx + 1) % cap)

/-- `probe_index`: start at `hash_fn(key) % capacity` and linearly probe.
The loop visits at most `capacity` slots before the `idx == start` break
fires, so fuel `capacity` reproduces the C loop exactly (this is proved as
the termination claim). -/
def probe_index {K V : Type} (t : XHashtable K V) (k : K) : Bool × Nat :=
  probeAux t.entries t.capacity (t.hash_fn k % t.capacity) t.eq_fn k
    t.capacity (t.hash_fn k % t.capacity)

/-- The body of `x_hashtable_set` after the load-factor check: probe, then
either overwrite the value of the found slot (the stored key block is kept,
only the value bytes are overwritten), or claim the returned slot for a new
entry and increment `count`.  The `(true, i)` / unoccupied arm is dead code:
`probe_index` reports `found` only on an occupied slot. -/
def setEntry {K V : Type} (t : XHashtable K V) (k : K) (v : V) : XHashtable K V :=
  match probe_index t k with
  | (true, i) =>
    match slotAt t.entries i with
    | some p => { t with entries := t.entries.set i (some (p.1, v)) }
    | none => { t with entries := t.entries.set i (some (k, v)) }
  | (false, i) =>
    { t with entries := t.entries.set i (some (k, v)), count := t.count + 1 }

/-- The fresh doubled table allocated at the top of `x_hashtable_rehash`:
double capacity, zeroed (all-unoccupied) entries array, `count = 0`. -/
def freshDouble {K V : Type} (t : XHashtable K V) : XHashtable K V :=
  { t with
    capacity := 2 * t.capacity
    entries := List.replicate (2 * t.capacity) none
    count := 0 }

/-- The re-insertion loop of `x_hashtable_rehash`: walk the old entries
array and insert each occupied entry into the accumulator table, via the
`set` implementation passed in (the C loop calls back into
`x_hashtable_set`). -/
def reinsertWith {K V : Type} (f : XHashtable K V → K → V → XHashtable K V) :
    List (Slot K V) → XHashtable K V → XHashtable K V
  | [], acc => acc
  | none :: rest, acc => reinsertWith f rest acc
  | some p :: rest, acc => reinsertWith f rest (f acc p.1 p.2)

/-- `x_hashtable_set`, fuel-indexed (the fuel bounds the depth of the
`set → rehash → set` recursion; on every well-formed state a nested rehash is
impossible, so any positive fuel reproduces the C function — see
`x_hashtable_set`).  If `count / capacity ≥ 0.75` (embedded exactly as
`3 * capacity ≤ 4 * count`), rehash first (allocate a doubled zeroed entries
array, reset `count`, and re-insert every occupied entry of the old array in
index order through `set`); then insert via `setEntry`. -/
def x_hashtable_set_fuel {K V : Type} : Nat → XHashtable K V → K → V → XHashtable K V
  | 0, t, k, v => setEntry t k v
  | fuel + 1, t, k, v =>
    setEntry
      (if 3 * t.capacity ≤ 4 * t.count
        then reinsertWith (x_hashtable_set_fuel fuel) t.entries (freshDouble t)
        else t) k v

/-- `x_hashtable_rehash` at a given recursion budget for its nested `set`
calls: allocate a doubled, zeroed entries array, reset `count`, and
re-insert every occupied old entry (the old key/value blocks are then freed;
block lifetimes are not part of the model). -/
def x_hashtable_rehash_fuel {K V : Type} (fuel : Nat) (t : XHashtable K V) :
    XHashtable K V :=
  reinsertWith (x_hashtable_set_fuel fuel) t.entries (freshDouble t)

/-- `x_hashtable_set` on a non-null table.  The fuel `t.entries.length + 1`
is positive, and one unit of fuel is spent on the (at most one) rehash a set
can trigger; nested rehashes never occur on well-formed states, so the fuel
is never exhausted (`set_unfold` below proves the C control flow is
reproduced exactly).  The C function's `return` value and `NULL`-handle check
are modelled by `x_hashtable_set_checked`. -/
def x_hashtable_set {K V : Type} (t : XHashtable K V) (k : K) (v : V) : XHashtable K V :=
  x_hashtable_set_fuel (t.entries.length + 1) t k v

/-- `x_hashtable_set` including the `if (!table) return false;` guard and the
returned boolean: `false` on a null handle, otherwise the mutation happens
and the function returns `true` (there is no allocation-failure check in the
C body, so the result does not depend on the allocator). -/
def x_hashtable_set_checked {K V : Type} (t : Option (XHashtable K V)) (k : K) (v : V) :
    Bool × Option (XHashtable K V) :=
  match t with
  | none => (false, none)
  | some t => (true, some (x_hashtable_set t k v))

/-- `x_hashtable_get`: probe; on `found`, copy the value bytes out
(modelled by returning `some value`); otherwise report not-found (`none`). -/
def x_hashtable_get {K V : Type} (t : XHashtable K V) (k : K) : Option V :=
  match probe_index t k with
  | (true, i) => (slotAt t.entries i).map (fun p => p.2)
  | (false, _) => none

/-- `x_hashtable_has`: probe and return the `found` flag. -/
def x_hashtable_has {K V : Type} (t : XHashtable K V) (k : K) : Bool :=
  (probe_index t k).1

/-- `x_hashtable_count`: the `count` field (the C `table ? table->count : 0`
null-guard is outside the model, tables being values here). -/
def x_hashtable_count {K V : Type} (t : XHashtable K V) : Nat :=
  t.count

/-- Result of `x_hashtable_remove`: the returned boolean, the table state
after the call, and the number of `stdx_free` calls the call issued (two —
the key block and the value block — on a successful removal, zero
otherwise). -/
structure RemoveResult (K V : Type) where
  ok : Bool
  table : XHashtable K V
  released : Nat

/-- `x_hashtable_remove`: probe; if not found return `false` touching
nothing; if found, free the slot's key and value blocks (two `stdx_free`
calls), zero the slot (`(XHashEntry){0}`, i.e. unoccupied), and decrement
`count`.  No other slot is moved or re-probed. -/
def x_hashtable_remove {K V : Type} (t : XHashtable K V) (k : K) : RemoveResult K V :=
  match probe_index t k with
  | (true, i) =>
    { ok := true
      table := { t with entries := t.entries.set i none, count := t.count - 1 }
      released := 2 }
  | (false, _) => { ok := false, table := t, released := 0 }

/-! ## Arena allocator (`stdx_arena.h`) -/

/-- An `XArenaChunk`: fixed byte capacity, used-byte offset, and the backing
buffer.  The buffer contents are abstracted to a list of bytes-as-naturals;
`malloc` never fails in the model and its (indeterminate) fresh contents are
modelled as zeros, which no claim inspects. -/
structure XArenaChunk where
  capacity : Nat
  used : Nat
  data : List Nat
  deriving DecidableEq

/-- An `XArena`: the configured chunk size and the chunk chain, head =
most-recently-prepended chunk. -/
structure XArena where
  chunk_size : Nat
  chunks : List XArenaChunk
  deriving DecidableEq

/-- `x_arena_chunk_create`: a fresh chunk of the given capacity with
`used = 0`. -/
def x_arena_chunk_create (size : Nat) : XArenaChunk :=
  { capacity := size, used := 0, data := List.replicate size 0 }

/-- The `for (chunk = arena->chunks; ...)` scan of `x_arena_alloc`: find the
first chunk with `capacity - used >= size`, bump its `used` by `size`, and
return (chain position of that chunk, old `used` offset, updated chain). -/
def allocScan : List XArenaChunk → Nat → Option (Nat × Nat × List XArenaChunk)
  | [], _ => none
  | c :: rest, size =>
    if size ≤ c.capacity - c.used then
      some (0, c.used, { c with used := c.used + size } :: rest)
    else
      (allocScan rest size).map (fun r => (r.1 + 1, r.2.1, c :: r.2.2))

/-- `x_arena_alloc`.  A returned pointer is modelled as a pair
(index of the chunk in the chain at return time, byte offset into its
buffer).  `none` models the `NULL` return for a zero size or a null arena.
If no chunk fits, a chunk of capacity `max(size, chunk_size)` is created
with `used = size` and prepended, and the allocation is its buffer start. -/
def x_arena_alloc (a : Option XArena) (size : Nat) : Option ((Nat × Nat) × XArena) :=
  match a with
  | none => none
  | some a =>
    if size = 0 then none
    else
      match allocScan a.chunks size with
      | some r => some ((r.1, r.2.1), { a with chunks := r.2.2 })
      | none =>
        let c := x_arena_chunk_create (if size > a.chunk_size then size else a.chunk_size)
        some ((0, 0), { a with chunks := { c with used := size } :: a.chunks })

/-- `x_arena_reset`: set every chunk's `used` to 0 (and touch nothing
else). -/
def x_arena_reset (a : XArena) : XArena :=
  { a with chunks := a.chunks.map (fun c => { c with used := 0 }) }

/-- Spec-side restatement of `x_arena_alloc`, following §4.1 of the spec
word for word: fail on zero size or null arena; otherwise the *first* chunk
in chain order with `capacity - used ≥ size` satisfies the request at its
old `used` offset, its `used` counter alone being bumped; if no chunk fits,
a chunk sized `max(size, chunk_size)` with `used = size` is prepended and
the allocation is carved from its start. -/
def arenaAllocSpec (a : Option XArena) (size : Nat) : Option ((Nat × Nat) × XArena) :=
  match a with
  | none => none
  | some a =>
    if size = 0 then none
    else
      match a.chunks.findIdx? (fun c => size ≤ c.capacity - c.used) with
      | some i =>
        let c := a.chunks.getD i ⟨0, 0, []⟩
        some ((i, c.used),
          { a with chunks := a.chunks.set i { c with used := c.used + size } })
      | none =>
        let c := x_arena_chunk_create (max size a.chunk_size)
        some ((0, 0), { a with chunks := { c with used := size } :: a.chunks })

/-! ## Analysis definitions for the hashtable -/

/-- The probe path as an index list: `probeIdxsFrom cap s j n` is the list of
the `n` slot indices `(s + j) % cap, (s + j + 1) % cap, ...` that the probe
loop would visit starting from step `j`. -/
def probeIdxsFrom (cap s : Nat) : Nat → Nat → List Nat
  | _, 0 => []
  | j, n + 1 => (s + j) % cap :: probeIdxsFrom cap s (j + 1) n

/-- A purely list-level rendering of the probe loop: scan an index list,
stopping at the first unoccupied slot (`found = false`) or first key match
(`found = true`). -/
def scanIdx {K V : Type} (e : List (Slot K V)) (ef : K → K → Bool) (k : K) :
    List Nat → Option (Bool × Nat)
  | [] => none
  | i :: rest =>
    match slotAt e i with
    | none => some (false, i)
    | some p => if ef k p.1 then some (true, i) else scanIdx e ef k rest

/-- Probe distance from start index `s` to slot `i`, walking forward with
wraparound: the number of steps after which the probe starting at `s`
reaches `i`. -/
def probeDist (cap s i : Nat) : Nat :=
  (i + cap - s) % cap

/-- `reinsert_fuel` with the load-factor check stripped: on every state a
rehash can actually reach, the nested check is false, and the re-insertion
loop is exactly this fold of `setEntry` (proved in `reinsert_fuel_eq_pure`). -/
def reinsertPure {K V : Type} : List (Slot K V) → XHashtable K V → XHashtable K V
  | [], acc => acc
  | none :: rest, acc => reinsertPure rest acc
  | some p :: rest, acc => reinsertPure rest (setEntry acc p.1 p.2)

/-- Consistency of a hash function with an equality function, as assumed by
the spec: the equality is an equivalence and equal keys hash alike. -/
structure HashEqConsistent {K : Type} (hf : K → Nat) (ef : K → K → Bool) : Prop where
  refl : ∀ a, ef a a = true
  symm : ∀ a b, ef a b = ef b a
  trans : ∀ a b c, ef a b = true → ef b c = true → ef a c = true
  hash_congr : ∀ a b, ef a b = true → hf a = hf b

/-- Every occupied slot is on a contiguous occupied probe path from its ideal
bucket (the invariant deletion threatens): for each occupied slot `i`
holding key `k`, every slot strictly between `hash(k) % capacity` and `i`
along the probe order is occupied. -/
def chainOkB {K V : Type} (t : XHashtable K V) : Bool :=
  (List.range t.entries.length).all (fun i =>
    match slotAt t.entries i with
    | none => true
    | some p =>
      (List.range (probeDist t.capacity (t.hash_fn p.1 % t.capacity) i)).all
        (fun m =>
          (slotAt t.entries ((t.hash_fn p.1 % t.capacity + m) % t.capacity)).isSome))

/-- No two distinct occupied slots hold keys the table's equality function
identifies. -/
def noDupKeysB {K V : Type} (t : XHashtable K V) : Bool :=
  (List.range t.entries.length).all (fun i =>
    (List.range t.entries.length).all (fun j =>
      (i == j) ||
      match slotAt t.entries i, slotAt t.entries j with
      | some p, some q => t.eq_fn p.1 q.1 == false
      | _, _ => true))

/-- The well-formedness invariant of a table: the entries array has length
`capacity`; `capacity` is at least the initial 16 and only doubles;
`count` counts the occupied slots and stays strictly below `capacity`;
occupied keys are pairwise distinct; and every occupied slot is reachable
from its ideal bucket along an occupied probe path. -/
def TableInv {K V : Type} (t : XHashtable K V) : Prop :=
  t.entries.length = t.capacity ∧
  16 ≤ t.capacity ∧
  t.count = occCount t.entries ∧
  t.count < t.capacity ∧
  noDupKeysB t = true ∧
  chainOkB t = true

instance {K V : Type} (t : XHashtable K V) : Decidable (TableInv t) := by
  unfold TableInv
  exact inferInstance

/-- The part of the invariant that holds for *every* hash and equality
function, even inconsistent ones: sizes and counts stay in sync and the
table never fills completely. -/
def WeakInv {K V : Type} (t : XHashtable K V) : Prop :=
  t.entries.length = t.capacity ∧
  16 ≤ t.capacity ∧
  t.count = occCount t.entries ∧
  t.count < t.capacity

/-- Table states reachable through the public API: `create` followed by any
sequence of `set` and `remove` calls (`get`/`has`/`count` do not change the
state). -/
inductive Reachable {K V : Type} : XHashtable K V → Prop
  | create (hf : K → Nat) (ef : K → K → Bool) :
      Reachable (x_hashtable_create hf ef)
  | set (t : XHashtable K V) (k : K) (v : V) :
      Reachable t → Reachable (x_hashtable_set t k v)
  | remove (t : XHashtable K V) (k : K) :
      Reachable t → Reachable (x_hashtable_remove t k).table

/-- Run a sequence of `set` operations on a freshly created table. -/
def runSets {K V : Type} (hf : K → Nat) (ef : K → K → Bool)
    (ops : List (K × V)) : XHashtable K V :=
  ops.foldl (fun t p => x_hashtable_set t p.1 p.2) (x_hashtable_create hf ef)

/-- The specification-side lookup: the value of the most recent
`set(k', v)` in the sequence whose key the equality function identifies
with `k` (later operations take precedence). -/
def specLookup {K V : Type} (ef : K → K → Bool) (ops : List (K × V)) (k : K) : Option V :=
  match ops with
  | [] => none
  | p :: rest =>
    match specLookup ef rest k with
    | some v => some v
    | none => if ef k p.1 then some p.2 else none

/-- Association-list lookup up to the equality function (abstract model of a
table's contents). -/
def lookupM {K V : Type} (ef : K → K → Bool) : List (K × V) → K → Option V
  | [], _ => none
  | p :: rest, k => if ef k p.1 then some p.2 else lookupM ef rest k

/-- Abstract-model update mirroring `set`: replace the value of every pair
whose key matches, or append a fresh pair. -/
def updM {K V : Type} (ef : K → K → Bool) (m : List (K × V)) (k : K) (v : V) :
    List (K × V) :=
  if (lookupM ef m k).isSome then
    m.map (fun p => if ef k p.1 then (p.1, v) else p)
  else m ++ [(k, v)]

/-- Abstract model of `runSets`. -/
def runM {K V : Type} (ef : K → K → Bool) (ops : List (K × V)) : List (K × V) :=
  ops.foldl (fun m p => updM ef m p.1 p.2) []

/-- First matching value in a prefix of an old entries array (used to state
what the rehash re-insertion loop has transferred so far). -/
def firstMatch {K V : Type} (ef : K → K → Bool) : List (Slot K V) → K → Option V
  | [], _ => none
  | none :: rest, k => firstMatch ef rest k
  | some p :: rest, k => if ef k p.1 then some p.2 else firstMatch ef rest k

/-! ## Slot-array lemmas -/

variable {K V : Type}

theorem slotAt_nil (i : Nat) : slotAt ([] : List (Slot K V)) i = none := by
  cases i <;> rfl

theorem slotAt_none_of_ge :
    ∀ (e : List (Slot K V)) (i : Nat), e.length ≤ i → slotAt e i = none := by
  intro e
  induction e with
  | nil => intro i _; exact slotAt_nil i
  | cons s rest ih =>
    intro i hi
    cases i with
    | zero => simp at hi
    | succ i => exact ih i (by simpa using hi)

theorem slotAt_lt_length {e : List (Slot K V)} {i : Nat} {p : K × V}
    (h : slotAt e i = some p) : i < e.length := by
  by_contra hge
  rw [slotAt_none_of_ge e i (by omega)] at h
  exact Option.noConfusion h

theorem slotAt_set_self :
    ∀ (e : List (Slot K V)) (i : Nat) (s : Slot K V), i < e.length →
      slotAt (e.set i s) i = s := by
  intro e
  induction e with
  | nil => intro i s hi; simp at hi
  | cons a rest ih =>
    intro i s hi
    cases i with
    | zero => rfl
    | succ i => exact ih i s (by simpa using hi)

theorem slotAt_set_ne :
    ∀ (e : List (Slot K V)) (i j : Nat) (s : Slot K V), i ≠ j →
      slotAt (e.set i s) j = slotAt e j := by
  intro e
  induction e with
  | nil => intro i j s _; cases i <;> simp [List.set, slotAt_nil]
  | cons a rest ih =>
    intro i j s hij
    cases i with
    | zero =>
      cases j with
      | zero => exact absurd rfl hij
      | succ j => rfl
    | succ i =>
      cases j with
      | zero => rfl
      | succ j => exact ih i j s (fun h => hij (by omega))

theorem occCount_le_length : ∀ e : List (Slot K V), occCount e ≤ e.length := by
  intro e
  induction e with
  | nil => simp [occCount]
  | cons s rest ih => cases s <;> simp [occCount] <;> omega

theorem occCount_set :
    ∀ (e : List (Slot K V)) (i : Nat) (s : Slot K V), i < e.length →
      occCount (e.set i s) + (if (slotAt e i).isSome then 1 else 0) =
        occCount e + (if s.isSome then 1 else 0) := by
  intro e
  induction e with
  | nil => intro i s hi; simp at hi
  | cons a rest ih =>
    intro i s hi
    cases i with
    | zero => cases a <;> cases s <;> simp [occCount, slotAt]
    | succ i =>
      have := ih i s (by simpa using hi)
      cases a <;> simp [occCount, slotAt] <;> omega

theorem occCount_eq_length_of_all_some
    (e : List (Slot K V)) (h : ∀ i, i < e.length → (slotAt e i).isSome = true) :
    occCount e = e.length := by
  induction e with
  | nil => rfl
  | cons a rest ih =>
    have h0 := h 0 (by simp)
    have hrest : ∀ i, i < rest.length → (slotAt rest i).isSome = true := by
      intro i hi
      exact h (i + 1) (by simpa using Nat.succ_lt_succ hi)
    cases a with
    | none => simp [slotAt] at h0
    | some p => simp [occCount, ih hrest]

theorem occCount_replicate_none (n : Nat) :
    occCount (List.replicate n (none : Slot K V)) = 0 := by
  induction n with
  | zero => rfl
  | succ n ih => simpa [List.replicate, occCount] using ih

theorem slotAt_replicate_none (n i : Nat) :
    slotAt (List.replicate n (none : Slot K V)) i = none := by
  induction n generalizing i with
  | zero => exact slotAt_nil i
  | succ n ih => cases i <;> simp [List.replicate, slotAt, ih]

/-! ## Modular arithmetic for the probe walk -/

theorem mod_closed {cap s a : Nat} (hs : s < cap) (ha : a < cap) :
    (s + a) % cap = if s + a < cap then s + a else s + a - cap := by
  split
  · exact Nat.mod_eq_of_lt (by assumption)
  · have h1 : cap ≤ s + a := by omega
    rw [Nat.mod_eq_sub_mod h1]
    exact Nat.mod_eq_of_lt (by omega)

theorem probeDist_closed {cap s i : Nat} (hs : s < cap) (hi : i < cap) :
    probeDist cap s i = if s ≤ i then i - s else i + cap - s := by
  unfold probeDist
  split
  · have : i + cap - s = (i - s) + cap := by omega
    rw [this, Nat.add_mod_right]
    exact Nat.mod_eq_of_lt (by omega)
  · exact Nat.mod_eq_of_lt (by omega)

theorem probeDist_lt {cap s i : Nat} (hcap : 0 < cap) : probeDist cap s i < cap :=
  Nat.mod_lt _ hcap

theorem probeDist_spec {cap s i : Nat} (hs : s < cap) (hi : i < cap) :
    (s + probeDist cap s i) % cap = i := by
  rw [probeDist_closed hs hi]
  split
  · rw [mod_closed hs (by omega)]; split <;> omega
  · rw [mod_closed hs (by omega)]; split <;> omega

theorem probeDist_add {cap s d : Nat} (hs : s < cap) (hd : d < cap) :
    probeDist cap s ((s + d) % cap) = d := by
  rw [mod_closed hs hd]
  split
  · rw [probeDist_closed hs (by omega)]; split <;> omega
  · rw [probeDist_closed hs (by omega)]; split <;> omega

theorem mod_add_inj {cap s a b : Nat} (hs : s < cap) (ha : a < cap) (hb : b < cap)
    (h : (s + a) % cap = (s + b) % cap) : a = b := by
  have h1 := probeDist_add hs ha
  have h2 := probeDist_add hs hb
  rw [h] at h1
  omega

theorem mod_step {cap s j : Nat} : ((s + j) % cap + 1) % cap = (s + (j + 1)) % cap := by
  rw [Nat.mod_add_mod, Nat.add_assoc]

theorem mod_wrap_iff {cap s j : Nat} (hs : s < cap) (hj : j + 1 ≤ cap) :
    (s + (j + 1)) % cap = s ↔ j + 1 = cap := by
  constructor
  · intro h
    by_contra hne
    rw [mod_closed hs (by omega)] at h
    split at h <;> omega
  · intro h
    rw [h, Nat.add_mod_right]
    exact Nat.mod_eq_of_lt hs

/-! ## Probe path lemmas -/

theorem probeIdxsFrom_split (cap s : Nat) :
    ∀ (n₁ n₂ j : Nat),
      probeIdxsFrom cap s j (n₁ + n₂) =
        probeIdxsFrom cap s j n₁ ++ probeIdxsFrom cap s (j + n₁) n₂ := by
  intro n₁
  induction n₁ with
  | zero => intro n₂ j; simp [probeIdxsFrom]
  | succ n₁ ih =>
    intro n₂ j
    have h1 : n₁ + 1 + n₂ = (n₁ + n₂) + 1 := by omega
    rw [h1]
    simp only [probeIdxsFrom, ih n₂ (j + 1)]
    have h2 : j + 1 + n₁ = j + (n₁ + 1) := by omega
    rw [h2]
    simp

theorem mem_probeIdxsFrom {cap s : Nat} :
    ∀ {n j i : Nat}, i ∈ probeIdxsFrom cap s j n ↔ ∃ m, m < n ∧ i = (s + (j + m)) % cap := by
  intro n
  induction n with
  | zero => intro j i; simp [probeIdxsFrom]
  | succ n ih =>
    intro j i
    simp only [probeIdxsFrom, List.mem_cons, ih]
    constructor
    · rintro (h | ⟨m, hm, h⟩)
      · exact ⟨0, by omega, by simpa using h⟩
      · exact ⟨m + 1, by omega, by rw [h]; congr 1; omega⟩
    · rintro ⟨m, hm, h⟩
      cases m with
      | zero => exact Or.inl (by simpa using h)
      | succ m => exact Or.inr ⟨m, by omega, by rw [h]; congr 1; omega⟩

theorem probeIdxsFrom_mem_lt {cap s n j i : Nat} (hcap : 0 < cap)
    (h : i ∈ probeIdxsFrom cap s j n) : i < cap := by
  rcases mem_probeIdxsFrom.1 h with ⟨m, _, rfl⟩
  exact Nat.mod_lt _ hcap

theorem mem_probeIdxs_of_lt {cap s i : Nat} (hs : s < cap) (hi : i < cap) :
    i ∈ probeIdxsFrom cap s 0 cap := by
  refine mem_probeIdxsFrom.2 ⟨probeDist cap s i, probeDist_lt (by omega), ?_⟩
  rw [Nat.zero_add, probeDist_spec hs hi]

/-! ## Scan lemmas -/

theorem scanIdx_append_skip {e : List (Slot K V)} {ef : K → K → Bool} {k : K} :
    ∀ {L₁ L₂ : List Nat},
      (∀ i ∈ L₁, ∃ p, slotAt e i = some p ∧ ef k p.1 = false) →
      scanIdx e ef k (L₁ ++ L₂) = scanIdx e ef k L₂ := by
  intro L₁
  induction L₁ with
  | nil => intro L₂ _; rfl
  | cons i rest ih =>
    intro L₂ h
    rcases h i (by simp) with ⟨p, hp, hef⟩
    simp only [List.cons_append, scanIdx, hp, hef]
    exact ih (fun j hj => h j (by simp [hj]))

theorem scanIdx_found {e : List (Slot K V)} {ef : K → K → Bool} {k : K} :
    ∀ {L : List Nat} {i : Nat},
      scanIdx e ef k L = some (true, i) →
      i ∈ L ∧ ∃ p, slotAt e i = some p ∧ ef k p.1 = true := by
  intro L
  induction L with
  | nil => intro i h; simp [scanIdx] at h
  | cons j rest ih =>
    intro i h
    rcases hj : slotAt e j with _ | p
    · simp only [scanIdx, hj] at h
      simp at h
    · simp only [scanIdx, hj] at h
      by_cases hef : ef k p.1 = true
      · rw [if_pos hef] at h
        obtain rfl : j = i := by simpa using h
        exact ⟨by simp, p, hj, hef⟩
      · rw [if_neg hef] at h
        rcases ih h with ⟨hm, hrest⟩
        exact ⟨by simp [hm], hrest⟩

theorem scanIdx_notfound {e : List (Slot K V)} {ef : K → K → Bool} {k : K} :
    ∀ {L : List Nat} {i : Nat},
      scanIdx e ef k L = some (false, i) → i ∈ L ∧ slotAt e i = none := by
  intro L
  induction L with
  | nil => intro i h; simp [scanIdx] at h
  | cons j rest ih =>
    intro i h
    rcases hj : slotAt e j with _ | p
    · simp only [scanIdx, hj] at h
      obtain rfl : j = i := by simpa using h
      exact ⟨by simp, hj⟩
    · simp only [scanIdx, hj] at h
      by_cases hef : ef k p.1 = true
      · rw [if_pos hef] at h; simp at h
      · rw [if_neg hef] at h
        rcases ih h with ⟨hm, hrest⟩
        exact ⟨by simp [hm], hrest⟩

theorem scanIdx_none {e : List (Slot K V)} {ef : K → K → Bool} {k : K} :
    ∀ {L : List Nat}, scanIdx e ef k L = none →
      ∀ i ∈ L, ∃ p, slotAt e i = some p ∧ ef k p.1 = false := by
  intro L
  induction L with
  | nil => intro _ i h; simp at h
  | cons j rest ih =>
    intro h i hi
    rcases hj : slotAt e j with _ | p
    · simp only [scanIdx, hj] at h
      simp at h
    · simp only [scanIdx, hj] at h
      by_cases hef : ef k p.1 = true
      · rw [if_pos hef] at h; simp at h
      · rw [if_neg hef] at h
        rcases List.mem_cons.1 hi with rfl | hi
        · exact ⟨p, hj, by simpa using hef⟩
        · exact ih h i hi

/-- Structure of a successful scan of a probe path: the hit sits `d` steps
into the path, and every earlier probed slot is occupied by a non-matching
key. -/
theorem scanIdx_probeIdxs_front {e : List (Slot K V)} {ef : K → K → Bool} {k : K}
    {cap s : Nat} :
    ∀ {n j : Nat} {r : Bool × Nat},
      scanIdx e ef k (probeIdxsFrom cap s j n) = some r →
      ∃ d, d < n ∧ r.2 = (s + (j + d)) % cap ∧
        ∀ m, m < d → ∃ p, slotAt e ((s + (j + m)) % cap) = some p ∧ ef k p.1 = false := by
  intro n
  induction n with
  | zero => intro j r h; simp [probeIdxsFrom, scanIdx] at h
  | succ n ih =>
    intro j r h
    rcases hj : slotAt e ((s + j) % cap) with _ | p
    · simp only [probeIdxsFrom, scanIdx, hj] at h
      refine ⟨0, by omega, ?_, by omega⟩
      have := Option.some.inj h
      simp [← this]
    · simp only [probeIdxsFrom, scanIdx, hj] at h
      by_cases hef : ef k p.1 = true
      · rw [if_pos hef] at h
        refine ⟨0, by omega, ?_, by omega⟩
        have := Option.some.inj h
        simp [← this]
      · rw [if_neg hef] at h
        rcases ih h with ⟨d, hd, hr, hpre⟩
        refine ⟨d + 1, by omega, by rw [hr]; congr 1; omega, ?_⟩
        intro m hm
        cases m with
        | zero => exact ⟨p, by simpa using hj, by simpa using hef⟩
        | succ m =>
          rcases hpre m (by omega) with ⟨q, hq, hqef⟩
          exact ⟨q, by rw [show j + (m + 1) = j + 1 + m by omega]; exact hq, hqef⟩

/-! ## The probe loop is the scan of its probe path -/

theorem probeAux_eq_scanIdx {e : List (Slot K V)} {ef : K → K → Bool} {k : K}
    {cap s : Nat} (hs : s < cap) :
    ∀ (fuel j : Nat), j < cap → cap ≤ j + fuel →
      probeAux e cap s ef k fuel ((s + j) % cap) =
        (scanIdx e ef k (probeIdxsFrom cap s j (cap - j))).getD (false, s) := by
  intro fuel
  induction fuel with
  | zero => intro j hj hle; omega
  | succ fuel ih =>
    intro j hj hle
    obtain ⟨m, hm⟩ : ∃ m, cap - j = m + 1 := ⟨cap - j - 1, by omega⟩
    rw [hm]
    rcases hslot : slotAt e ((s + j) % cap) with _ | p
    · simp only [probeAux, probeIdxsFrom, scanIdx, hslot]
      rfl
    · simp only [probeAux, probeIdxsFrom, scanIdx, hslot]
      by_cases hef : ef k p.1 = true
      · rw [if_pos hef, if_pos hef]
        rfl
      · rw [if_neg hef, if_neg hef]
        simp only [mod_step]
        by_cases hwrap : (s + (j + 1)) % cap = s
        · have hj1 : j + 1 = cap := (mod_wrap_iff hs (by omega)).1 hwrap
          have hm0 : m = 0 := by omega
          subst hm0
          rw [if_pos hwrap]
          simp [probeIdxsFrom, scanIdx, hwrap]
        · rw [if_neg hwrap]
          have hj1 : j + 1 ≠ cap := fun h => hwrap ((mod_wrap_iff hs (by omega)).2 h)
          have hcm : cap - (j + 1) = m := by omega
          have := ih (j + 1) (by omega) (by omega)
          rw [hcm] at this
          rw [this]

theorem probe_index_eq_scan {t : XHashtable K V} {k : K} (hcap : 0 < t.capacity) :
    probe_index t k =
      (scanIdx t.entries t.eq_fn k
        (probeIdxsFrom t.capacity (t.hash_fn k % t.capacity) 0 t.capacity)).getD
        (false, t.hash_fn k % t.capacity) := by
  have hs : t.hash_fn k % t.capacity < t.capacity := Nat.mod_lt _ hcap
  have h := @probeAux_eq_scanIdx K V t.entries t.eq_fn k t.capacity
    (t.hash_fn k % t.capacity) hs t.capacity 0 (by omega) (by omega)
  rw [Nat.add_zero, Nat.mod_eq_of_lt hs] at h
  simpa [probe_index] using h

/-! ## Invariant components as propositions -/

theorem chainOk_iff {t : XHashtable K V} :
    chainOkB t = true ↔
      ∀ i p, slotAt t.entries i = some p →
        ∀ m, m < probeDist t.capacity (t.hash_fn p.1 % t.capacity) i →
          (slotAt t.entries
            ((t.hash_fn p.1 % t.capacity + m) % t.capacity)).isSome = true := by
  unfold chainOkB
  rw [List.all_eq_true]
  constructor
  · intro h i p hip m hm
    have hilt : i < t.entries.length := slotAt_lt_length hip
    have := h i (List.mem_range.2 hilt)
    rw [hip] at this
    rw [List.all_eq_true] at this
    exact this m (List.mem_range.2 hm)
  · intro h i hi
    rcases hip : slotAt t.entries i with _ | p
    · simp
    · simp only []
      rw [List.all_eq_true]
      intro m hm
      exact h i p hip m (List.mem_range.1 hm)

theorem noDupKeys_iff {t : XHashtable K V} :
    noDupKeysB t = true ↔
      ∀ i j p q, i ≠ j → slotAt t.entries i = some p → slotAt t.entries j = some q →
        t.eq_fn p.1 q.1 = false := by
  unfold noDupKeysB
  rw [List.all_eq_true]
  constructor
  · intro h i j p q hij hip hjq
    have hilt : i < t.entries.length := slotAt_lt_length hip
    have hjlt : j < t.entries.length := slotAt_lt_length hjq
    have h1 := h i (List.mem_range.2 hilt)
    rw [List.all_eq_true] at h1
    have h2 := h1 j (List.mem_range.2 hjlt)
    rw [hip, hjq] at h2
    rcases Bool.or_eq_true_iff.1 h2 with hb | hb
    · exact absurd (by simpa using hb) hij
    · simpa using hb
  · intro h i hi
    rw [List.all_eq_true]
    intro j hj
    by_cases hij : i = j
    · simp [hij]
    · rcases hip : slotAt t.entries i with _ | p
      · simp
      · rcases hjq : slotAt t.entries j with _ | q
        · simp
        · simp only [Bool.or_eq_true, beq_iff_eq]
          exact Or.inr (by simpa using h i j p q hij hip hjq)

/-! ## Probe facts -/

/-- Soundness of the probe: a `found` result points at an occupied slot
whose key matches the query. -/
theorem probe_found_slot {t : XHashtable K V} {k : K} {i : Nat}
    (hcap : 0 < t.capacity) (h : probe_index t k = (true, i)) :
    i < t.capacity ∧ ∃ p, slotAt t.entries i = some p ∧ t.eq_fn k p.1 = true := by
  rw [probe_index_eq_scan hcap] at h
  rcases hscan : scanIdx t.entries t.eq_fn k
      (probeIdxsFrom t.capacity (t.hash_fn k % t.capacity) 0 t.capacity) with _ | r
  · rw [hscan] at h
    simp at h
  · rw [hscan] at h
    simp only [Option.getD_some] at h
    subst h
    rcases scanIdx_found hscan with ⟨hmem, hrest⟩
    exact ⟨probeIdxsFrom_mem_lt hcap hmem, hrest⟩

/-- A not-found probe on a table that still has a hole lands on an
unoccupied slot (the first one along the probe path). -/
theorem probe_false_slot_none {t : XHashtable K V} {k : K} {i : Nat}
    (hcap : 0 < t.capacity) (hlen : t.entries.length = t.capacity)
    (hocc : occCount t.entries < t.capacity)
    (h : probe_index t k = (false, i)) :
    i < t.capacity ∧ slotAt t.entries i = none := by
  rw [probe_index_eq_scan hcap] at h
  rcases hscan : scanIdx t.entries t.eq_fn k
      (probeIdxsFrom t.capacity (t.hash_fn k % t.capacity) 0 t.capacity) with _ | r
  · exfalso
    have hall := scanIdx_none hscan
    have : occCount t.entries = t.entries.length := by
      apply occCount_eq_length_of_all_some
      intro j hj
      rcases hall j (mem_probeIdxs_of_lt (Nat.mod_lt _ hcap) (by omega)) with ⟨p, hp, _⟩
      simp [hp]
    omega
  · rw [hscan] at h
    simp only [Option.getD_some] at h
    subst h
    rcases scanIdx_notfound hscan with ⟨hmem, hnone⟩
    exact ⟨probeIdxsFrom_mem_lt hcap hmem, hnone⟩

/-- Every slot the probe walked past before its result is occupied by a
key that does not match the query. -/
theorem probe_passed_slots {t : XHashtable K V} {k : K} {b : Bool} {i : Nat}
    (hcap : 0 < t.capacity)
    (h : probe_index t k = (b, i)) (hne : ¬(b = false ∧ i = t.hash_fn k % t.capacity)) :
    i < t.capacity ∧
      ∀ m, m < probeDist t.capacity (t.hash_fn k % t.capacity) i →
        ∃ p, slotAt t.entries ((t.hash_fn k % t.capacity + m) % t.capacity) = some p ∧
          t.eq_fn k p.1 = false := by
  have hs : t.hash_fn k % t.capacity < t.capacity := Nat.mod_lt _ hcap
  rw [probe_index_eq_scan hcap] at h
  rcases hscan : scanIdx t.entries t.eq_fn k
      (probeIdxsFrom t.capacity (t.hash_fn k % t.capacity) 0 t.capacity) with _ | r
  · rw [hscan] at h
    simp only [Option.getD_none] at h
    exact absurd ⟨(congrArg Prod.fst h).symm, (congrArg Prod.snd h).symm⟩ hne
  · rw [hscan] at h
    simp only [Option.getD_some] at h
    subst h
    rcases scanIdx_probeIdxs_front hscan with ⟨d, hd, hr, hpre⟩
    simp only [Nat.zero_add] at hr hpre
    have hi : i < t.capacity := by rw [hr]; exact Nat.mod_lt _ hcap
    refine ⟨hi, ?_⟩
    intro m hm
    rw [hr, probeDist_add hs hd] at hm
    exact hpre m hm

/-- Completeness of the probe under the table invariant: if some occupied
slot's key matches the query, the probe finds it (and returns exactly that
slot). -/
theorem probe_finds_match {t : XHashtable K V} {k : K} {i : Nat} {p : K × V}
    (hc : HashEqConsistent t.hash_fn t.eq_fn)
    (hlen : t.entries.length = t.capacity)
    (hcap : 0 < t.capacity)
    (hnodup : noDupKeysB t = true)
    (hchain : chainOkB t = true)
    (hip : slotAt t.entries i = some p) (hm : t.eq_fn k p.1 = true) :
    probe_index t k = (true, i) := by
  have hilt : i < t.capacity := hlen ▸ slotAt_lt_length hip
  have hhash : t.hash_fn p.1 % t.capacity = t.hash_fn k % t.capacity := by
    rw [hc.hash_congr k p.1 hm]
  obtain ⟨s, hsdef⟩ : ∃ s, t.hash_fn k % t.capacity = s := ⟨_, rfl⟩
  have hs : s < t.capacity := hsdef ▸ Nat.mod_lt _ hcap
  obtain ⟨d, hddef⟩ : ∃ d, probeDist t.capacity s i = d := ⟨_, rfl⟩
  have hdlt : d < t.capacity := hddef ▸ probeDist_lt hcap
  have hsd : (s + d) % t.capacity = i := by
    rw [← hddef]; exact probeDist_spec hs hilt
  -- split the probe path at distance d
  have hsplit : probeIdxsFrom t.capacity s 0 t.capacity =
      probeIdxsFrom t.capacity s 0 d ++ probeIdxsFrom t.capacity s d (t.capacity - d) := by
    have h1 := probeIdxsFrom_split t.capacity s d (t.capacity - d) 0
    rw [Nat.zero_add] at h1
    rw [show d + (t.capacity - d) = t.capacity from by omega] at h1
    exact h1
  -- every slot strictly before i on the path is occupied (chain invariant)
  -- by a key that does not match (no-duplicates invariant)
  have hpre : ∀ j ∈ probeIdxsFrom t.capacity s 0 d,
      ∃ q, slotAt t.entries j = some q ∧ t.eq_fn k q.1 = false := by
    intro j hj
    rcases mem_probeIdxsFrom.1 hj with ⟨m, hmlt, rfl⟩
    simp only [Nat.zero_add]
    have hocc := (chainOk_iff.1 hchain) i p hip m
      (by rw [hhash, hsdef, hddef]; exact hmlt)
    rw [hhash, hsdef] at hocc
    rcases hq : slotAt t.entries ((s + m) % t.capacity) with _ | q
    · rw [hq] at hocc; simp at hocc
    · refine ⟨q, rfl, ?_⟩
      by_contra hqm
      have hqm : t.eq_fn k q.1 = true := by
        cases hb : t.eq_fn k q.1
        · exact absurd hb hqm
        · rfl
      have hne : (s + m) % t.capacity ≠ i := by
        intro heq
        rw [← hsd] at heq
        have := mod_add_inj hs (by omega) hdlt heq
        omega
      have hqp : t.eq_fn q.1 p.1 = true := by
        have h1 : t.eq_fn q.1 k = true := by rw [hc.symm]; exact hqm
        exact hc.trans q.1 k p.1 h1 hm
      have := (noDupKeys_iff.1 hnodup) _ i q p hne hq hip
      rw [this] at hqp
      exact Bool.noConfusion hqp
  -- the scan skips the prefix and hits the matching slot at distance d
  obtain ⟨n, hn⟩ : ∃ n, t.capacity - d = n + 1 := ⟨t.capacity - d - 1, by omega⟩
  rw [probe_index_eq_scan hcap, hsdef, hsplit, scanIdx_append_skip hpre, hn]
  simp only [probeIdxsFrom, scanIdx, hsd, hip]
  rw [if_pos hm]
  rfl

/-- Contrapositive packaging: a not-found probe on an invariant-satisfying
table means no occupied slot matches the query key. -/
theorem probe_notfound_nomatch {t : XHashtable K V} {k : K}
    (hc : HashEqConsistent t.hash_fn t.eq_fn)
    (hlen : t.entries.length = t.capacity)
    (hcap : 0 < t.capacity)
    (hnodup : noDupKeysB t = true)
    (hchain : chainOkB t = true)
    (h : (probe_index t k).1 = false) :
    ∀ i p, slotAt t.entries i = some p → t.eq_fn k p.1 = false := by
  intro i p hip
  cases hb : t.eq_fn k p.1
  · rfl
  · exfalso
    have := probe_finds_match hc hlen hcap hnodup hchain hip hb
    rw [this] at h
    exact Bool.noConfusion h

/-! ## `get`/`has` characterizations -/

theorem has_eq_probe (t : XHashtable K V) (k : K) :
    x_hashtable_has t k = (probe_index t k).1 := rfl

theorem get_eq_none_iff_probe_false {t : XHashtable K V} {k : K}
    (hcap : 0 < t.capacity) :
    x_hashtable_get t k = none ↔ (probe_index t k).1 = false := by
  rcases hpr : probe_index t k with ⟨b, i⟩
  cases b
  · simp [x_hashtable_get, hpr]
  · rcases probe_found_slot hcap hpr with ⟨hilt, p, hp, hm⟩
    simp [x_hashtable_get, hpr, hp]

theorem get_isSome_eq_has {t : XHashtable K V} {k : K} (hcap : 0 < t.capacity) :
    (x_hashtable_get t k).isSome = x_hashtable_has t k := by
  rcases hpr : probe_index t k with ⟨b, i⟩
  cases b
  · simp [x_hashtable_get, x_hashtable_has, hpr]
  · rcases probe_found_slot hcap hpr with ⟨hilt, p, hp, hm⟩
    simp [x_hashtable_get, x_hashtable_has, hpr, hp]

theorem get_some_iff {t : XHashtable K V} {k : K} {v : V}
    (hc : HashEqConsistent t.hash_fn t.eq_fn)
    (hlen : t.entries.length = t.capacity)
    (hcap : 0 < t.capacity)
    (hnodup : noDupKeysB t = true)
    (hchain : chainOkB t = true) :
    x_hashtable_get t k = some v ↔
      ∃ i p, slotAt t.entries i = some p ∧ t.eq_fn k p.1 = true ∧ p.2 = v := by
  constructor
  · intro h
    rcases hpr : probe_index t k with ⟨b, i⟩
    cases b
    · simp [x_hashtable_get, hpr] at h
    · rcases probe_found_slot hcap hpr with ⟨hilt, p, hp, hm⟩
      simp only [x_hashtable_get, hpr, hp, Option.map_some] at h
      exact ⟨i, p, hp, hm, by simpa using h⟩
  · rintro ⟨i, p, hp, hm, rfl⟩
    have hfind := probe_finds_match hc hlen hcap hnodup hchain hp hm
    simp [x_hashtable_get, hfind, hp]

theorem get_none_iff {t : XHashtable K V} {k : K}
    (hc : HashEqConsistent t.hash_fn t.eq_fn)
    (hlen : t.entries.length = t.capacity)
    (hcap : 0 < t.capacity)
    (hnodup : noDupKeysB t = true)
    (hchain : chainOkB t = true) :
    x_hashtable_get t k = none ↔
      ∀ i p, slotAt t.entries i = some p → t.eq_fn k p.1 = false := by
  rw [get_eq_none_iff_probe_false hcap]
  constructor
  · intro h
    exact probe_notfound_nomatch hc hlen hcap hnodup hchain h
  · intro h
    rcases hpr : probe_index t k with ⟨b, i⟩
    cases b
    · rfl
    · rcases probe_found_slot hcap hpr with ⟨hilt, p, hp, hm⟩
      rw [h i p hp] at hm
      exact Bool.noConfusion hm

theorem option_ext {A : Type} {a b : Option A}
    (h : ∀ x : A, a = some x ↔ b = some x) : a = b := by
  cases a with
  | none =>
    cases b with
    | none => rfl
    | some x => exact (h x).2 rfl
  | some x => exact ((h x).1 rfl).symm

/-! ## `setEntry` structural lemmas -/

theorem setEntry_eq_found {t : XHashtable K V} {k : K} {v : V} {i : Nat} {p : K × V}
    (h : probe_index t k = (true, i)) (hp : slotAt t.entries i = some p) :
    setEntry t k v = { t with entries := t.entries.set i (some (p.1, v)) } := by
  simp [setEntry, h, hp]

theorem setEntry_eq_notfound {t : XHashtable K V} {k : K} {v : V} {i : Nat}
    (h : probe_index t k = (false, i)) :
    setEntry t k v =
      { t with entries := t.entries.set i (some (k, v)), count := t.count + 1 } := by
  simp [setEntry, h]

theorem setEntry_fields (t : XHashtable K V) (k : K) (v : V) :
    (setEntry t k v).capacity = t.capacity ∧
    (setEntry t k v).hash_fn = t.hash_fn ∧
    (setEntry t k v).eq_fn = t.eq_fn ∧
    (setEntry t k v).entries.length = t.entries.length ∧
    (setEntry t k v).count ≤ t.count + 1 := by
  rcases hpr : probe_index t k with ⟨b, i⟩
  cases b
  · rw [setEntry_eq_notfound hpr]
    simp
  · rcases hp : slotAt t.entries i with _ | p
    · simp [setEntry, hpr, hp]
    · rw [setEntry_eq_found hpr hp]
      simp

theorem setEntry_capacity (t : XHashtable K V) (k : K) (v : V) :
    (setEntry t k v).capacity = t.capacity := (setEntry_fields t k v).1

theorem setEntry_hash_fn (t : XHashtable K V) (k : K) (v : V) :
    (setEntry t k v).hash_fn = t.hash_fn := (setEntry_fields t k v).2.1

theorem setEntry_eq_fn (t : XHashtable K V) (k : K) (v : V) :
    (setEntry t k v).eq_fn = t.eq_fn := (setEntry_fields t k v).2.2.1

theorem setEntry_entries_length (t : XHashtable K V) (k : K) (v : V) :
    (setEntry t k v).entries.length = t.entries.length := (setEntry_fields t k v).2.2.2.1

theorem setEntry_count_le (t : XHashtable K V) (k : K) (v : V) :
    (setEntry t k v).count ≤ t.count + 1 := (setEntry_fields t k v).2.2.2.2

/-- The count returned by `setEntry`: unchanged when the key was found,
incremented when a fresh slot was claimed.  `found` agrees with
`get t k ≠ none`. -/
theorem setEntry_count {t : XHashtable K V} (k : K) (v : V) (hcap : 0 < t.capacity) :
    (setEntry t k v).count =
      t.count + (if (x_hashtable_get t k).isSome then 0 else 1) := by
  rcases hpr : probe_index t k with ⟨b, i⟩
  cases b
  · have hget : x_hashtable_get t k = none := by simp [x_hashtable_get, hpr]
    rw [setEntry_eq_notfound hpr, hget]
    simp
  · rcases probe_found_slot hcap hpr with ⟨hilt, p, hp, hm⟩
    have hget : x_hashtable_get t k = some p.2 := by simp [x_hashtable_get, hpr, hp]
    rw [setEntry_eq_found hpr hp, hget]
    simp

theorem slotAt_set_eq_ite {e : List (Slot K V)} {i : Nat} {s : Slot K V}
    (hi : i < e.length) (x : Nat) :
    slotAt (e.set i s) x = if x = i then s else slotAt e x := by
  by_cases hx : x = i
  · subst hx
    rw [slotAt_set_self _ _ _ hi]
    simp
  · rw [slotAt_set_ne _ _ _ _ (fun h => hx h.symm)]
    simp [hx]

theorem probeDist_self {cap s : Nat} (hcap : 0 < cap) : probeDist cap s s = 0 := by
  unfold probeDist
  rw [show s + cap - s = cap from by omega, Nat.mod_self]

/-! ## `setEntry` preserves the invariant -/

theorem setEntry_inv {t : XHashtable K V} {k : K} {v : V}
    (hc : HashEqConsistent t.hash_fn t.eq_fn) (hinv : TableInv t)
    (hroom : t.count + 1 < t.capacity) :
    TableInv (setEntry t k v) := by
  obtain ⟨hlen, hcap16, hcnt, hlt, hnodup, hchain⟩ := hinv
  have hcap : 0 < t.capacity := by omega
  rcases hpr : probe_index t k with ⟨b, i⟩
  cases b
  · -- not found: a fresh slot (which is a hole) is claimed
    rcases probe_false_slot_none hcap hlen (by omega) hpr with ⟨hilt, hnone⟩
    have hilen : i < t.entries.length := by omega
    have hnomatch := probe_notfound_nomatch hc hlen hcap hnodup hchain
      (by rw [hpr])
    rw [setEntry_eq_notfound hpr]
    have hupd := slotAt_set_eq_ite (s := some (k, v)) hilen
    have hmono : ∀ x, (slotAt t.entries x).isSome = true →
        (slotAt (t.entries.set i (some (k, v))) x).isSome = true := by
      intro x hx
      rw [hupd x]
      by_cases hxi : x = i <;> simp [hxi, hx]
    refine ⟨by simpa using hlen, by simpa using hcap16, ?_, by simpa using hroom, ?_, ?_⟩
    · -- count bookkeeping
      have hset := occCount_set t.entries i (some (k, v)) hilen
      rw [hnone] at hset
      simp at hset
      simp only []
      omega
    · -- distinct keys
      rw [noDupKeys_iff]
      intro i' j' p' q' hne hp' hq'
      simp only [] at hp' hq' ⊢
      rw [hupd i'] at hp'
      rw [hupd j'] at hq'
      by_cases hij : i' = i
      · rw [if_pos hij] at hp'
        obtain rfl : (k, v) = p' := Option.some.inj hp'
        have hji : ¬(j' = i) := fun h => hne (by omega)
        rw [if_neg hji] at hq'
        exact hnomatch j' q' hq'
      · rw [if_neg hij] at hp'
        by_cases hji : j' = i
        · rw [if_pos hji] at hq'
          obtain rfl : (k, v) = q' := Option.some.inj hq'
          rw [hc.symm]
          exact hnomatch i' p' hp'
        · rw [if_neg hji] at hq'
          exact (noDupKeys_iff.1 hnodup) i' j' p' q' hne hp' hq'
    · -- probe chains
      rw [chainOk_iff]
      intro i' p' hp' m hm
      simp only [] at hp' hm ⊢
      rw [hupd i'] at hp'
      by_cases hij : i' = i
      · -- the new entry: the probe walked over an occupied prefix
        subst hij
        rw [if_pos rfl] at hp'
        obtain rfl : (k, v) = p' := Option.some.inj hp'
        have hfst : t.hash_fn (k, v).1 % t.capacity = t.hash_fn k % t.capacity := rfl
        rw [hfst] at hm ⊢
        by_cases his : i' = t.hash_fn k % t.capacity
        · rw [← his, probeDist_self hcap] at hm
          omega
        · have hpre := probe_passed_slots hcap hpr (by
            rintro ⟨_, h⟩
            exact his h)
          rcases hpre with ⟨_, hpre2⟩
          rcases hpre2 m hm with ⟨q, hq, _⟩
          exact hmono _ (by rw [hq]; rfl)
      · rw [if_neg hij] at hp'
        exact hmono _ ((chainOk_iff.1 hchain) i' p' hp' m hm)
  · -- found: only the value bytes of slot i change
    rcases probe_found_slot hcap hpr with ⟨hilt, p, hp, hm⟩
    have hilen : i < t.entries.length := by omega
    rw [setEntry_eq_found hpr hp]
    have hupd := slotAt_set_eq_ite (s := some (p.1, v)) hilen
    -- slot keys and occupancy are unchanged
    have hkey : ∀ x q', slotAt (t.entries.set i (some (p.1, v))) x = some q' →
        ∃ q, slotAt t.entries x = some q ∧ q.1 = q'.1 := by
      intro x q' hx
      rw [hupd x] at hx
      by_cases hxi : x = i
      · rw [if_pos hxi] at hx
        obtain rfl : (p.1, v) = q' := Option.some.inj hx
        exact ⟨p, hxi ▸ hp, rfl⟩
      · rw [if_neg hxi] at hx
        exact ⟨q', hx, rfl⟩
    have hocceq : ∀ x, (slotAt (t.entries.set i (some (p.1, v))) x).isSome =
        (slotAt t.entries x).isSome := by
      intro x
      rw [hupd x]
      by_cases hxi : x = i
      · rw [if_pos hxi, hxi, hp]
        rfl
      · rw [if_neg hxi]
    refine ⟨by simpa using hlen, by simpa using hcap16, ?_, by simpa using hlt, ?_, ?_⟩
    · have hset := occCount_set t.entries i (some (p.1, v)) hilen
      rw [hp] at hset
      simp only [Option.isSome_some, if_true] at hset
      simp only []
      omega
    · rw [noDupKeys_iff]
      intro i' j' p' q' hne hp' hq'
      simp only [] at hp' hq' ⊢
      rcases hkey i' p' hp' with ⟨p₀, hp₀, hk1⟩
      rcases hkey j' q' hq' with ⟨q₀, hq₀, hk2⟩
      rw [← hk1, ← hk2]
      exact (noDupKeys_iff.1 hnodup) i' j' p₀ q₀ hne hp₀ hq₀
    · rw [chainOk_iff]
      intro i' p' hp' m hm
      simp only [] at hp' hm ⊢
      rcases hkey i' p' hp' with ⟨p₀, hp₀, hk1⟩
      rw [hocceq]
      rw [← hk1] at hm ⊢
      exact (chainOk_iff.1 hchain) i' p₀ hp₀ m (by simpa using hm)

/-- Lookup after `setEntry`: the key written (up to the equality function)
maps to the new value, every other key reads as before. -/
theorem setEntry_get {t : XHashtable K V} {k : K} (v : V) (k2 : K)
    (hc : HashEqConsistent t.hash_fn t.eq_fn) (hinv : TableInv t)
    (hroom : t.count + 1 < t.capacity) :
    x_hashtable_get (setEntry t k v) k2 =
      if t.eq_fn k2 k = true then some v else x_hashtable_get t k2 := by
  obtain ⟨hlen, hcap16, hcnt, hlt, hnodup, hchain⟩ := hinv
  have hcap : 0 < t.capacity := by omega
  obtain ⟨hlen2, hcap162, hcnt2, hlt2, hnodup2, hchain2⟩ :=
    setEntry_inv (k := k) (v := v) hc ⟨hlen, hcap16, hcnt, hlt, hnodup, hchain⟩ hroom
  have hcap2 : 0 < (setEntry t k v).capacity := by omega
  have hc2 : HashEqConsistent (setEntry t k v).hash_fn (setEntry t k v).eq_fn := by
    rw [setEntry_hash_fn, setEntry_eq_fn]
    exact hc
  rcases hpr : probe_index t k with ⟨b, i⟩
  cases b
  · -- not found: slot i (a hole) becomes (k, v)
    rcases probe_false_slot_none hcap hlen (by omega) hpr with ⟨hilt, hnone⟩
    have hilen : i < t.entries.length := by omega
    have hnomatch := probe_notfound_nomatch hc hlen hcap hnodup hchain (by rw [hpr])
    have heq := setEntry_eq_notfound (v := v) hpr
    have hupd := slotAt_set_eq_ite (s := some (k, v)) hilen
    by_cases hef : t.eq_fn k2 k = true
    · rw [if_pos hef]
      rw [get_some_iff hc2 hlen2 hcap2 hnodup2 hchain2, heq]
      simp only []
      exact ⟨i, (k, v), by rw [hupd i]; simp, by simpa using hef, rfl⟩
    · rw [if_neg hef]
      apply option_ext
      intro w
      rw [get_some_iff hc2 hlen2 hcap2 hnodup2 hchain2,
        get_some_iff hc hlen hcap hnodup hchain, heq]
      simp only []
      constructor
      · rintro ⟨j, q, hq', hm', hval⟩
        rw [hupd j] at hq'
        by_cases hji : j = i
        · rw [if_pos hji] at hq'
          obtain rfl : (k, v) = q := Option.some.inj hq'
          exact absurd hm' hef
        · rw [if_neg hji] at hq'
          exact ⟨j, q, hq', hm', hval⟩
      · rintro ⟨j, q, hq, hm', hval⟩
        have hji : ¬(j = i) := by
          intro hji
          rw [hji, hnone] at hq
          exact Option.noConfusion hq
        exact ⟨j, q, by rw [hupd j, if_neg hji]; exact hq, hm', hval⟩
  · -- found: the value bytes of slot i become v, its key block stays
    rcases probe_found_slot hcap hpr with ⟨hilt, p, hp, hm⟩
    have hilen : i < t.entries.length := by omega
    have heq := setEntry_eq_found (v := v) hpr hp
    have hupd := slotAt_set_eq_ite (s := some (p.1, v)) hilen
    have hpk : t.eq_fn p.1 k = true := by
      rw [hc.symm]
      exact hm
    by_cases hef : t.eq_fn k2 k = true
    · rw [if_pos hef]
      rw [get_some_iff hc2 hlen2 hcap2 hnodup2 hchain2, heq]
      simp only []
      refine ⟨i, (p.1, v), by rw [hupd i]; simp, ?_, rfl⟩
      have : t.eq_fn k p.1 = true := hm
      exact hc.trans k2 k p.1 hef hm
    · rw [if_neg hef]
      apply option_ext
      intro w
      rw [get_some_iff hc2 hlen2 hcap2 hnodup2 hchain2,
        get_some_iff hc hlen hcap hnodup hchain, heq]
      simp only []
      constructor
      · rintro ⟨j, q, hq', hm', hval⟩
        rw [hupd j] at hq'
        by_cases hji : j = i
        · rw [if_pos hji] at hq'
          obtain rfl : (p.1, v) = q := Option.some.inj hq'
          exact absurd (hc.trans k2 (p.1, v).1 k hm' hpk) hef
        · rw [if_neg hji] at hq'
          exact ⟨j, q, hq', hm', hval⟩
      · rintro ⟨j, q, hq, hm', hval⟩
        by_cases hji : j = i
        · exfalso
          rw [hji, hp] at hq
          obtain rfl : p = q := Option.some.inj hq
          exact absurd (hc.trans k2 p.1 k hm' hpk) hef
        · exact ⟨j, q, by rw [hupd j, if_neg hji]; exact hq, hm', hval⟩

/-! ## Lemmas about `occCount`, `firstMatch` and list append -/

theorem occCount_append :
    ∀ (a b : List (Slot K V)), occCount (a ++ b) = occCount a + occCount b := by
  intro a b
  induction a with
  | nil => simp [occCount]
  | cons s rest ih =>
    cases s with
    | none =>
      show occCount (rest ++ b) = occCount rest + occCount b
      exact ih
    | some p =>
      show occCount (rest ++ b) + 1 = (occCount rest + 1) + occCount b
      rw [ih]
      omega

theorem slotAt_append_left :
    ∀ (a b : List (Slot K V)) (j : Nat), j < a.length →
      slotAt (a ++ b) j = slotAt a j := by
  intro a
  induction a with
  | nil => intro b j hj; simp at hj
  | cons s rest ih =>
    intro b j hj
    cases j with
    | zero => rfl
    | succ j => exact ih b j (by simpa using hj)

theorem slotAt_append_right :
    ∀ (a b : List (Slot K V)) (j : Nat), slotAt (a ++ b) (a.length + j) = slotAt b j := by
  intro a
  induction a with
  | nil => intro b j; simp [slotAt]
  | cons s rest ih =>
    intro b j
    have : (s :: rest).length + j = (rest.length + j) + 1 := by simp; omega
    rw [this]
    exact ih b j

theorem firstMatch_append (ef : K → K → Bool) :
    ∀ (a b : List (Slot K V)) (k : K),
      firstMatch ef (a ++ b) k =
        match firstMatch ef a k with
        | some w => some w
        | none => firstMatch ef b k := by
  intro a
  induction a with
  | nil => intro b k; simp [firstMatch]
  | cons s rest ih =>
    intro b k
    cases s with
    | none => simpa [firstMatch] using ih b k
    | some p =>
      simp only [List.cons_append, firstMatch]
      by_cases hef : ef k p.1 = true
      · rw [if_pos hef, if_pos hef]
      · rw [if_neg hef, if_neg hef]
        exact ih b k

theorem firstMatch_some {ef : K → K → Bool} :
    ∀ {l : List (Slot K V)} {k : K} {w : V},
      firstMatch ef l k = some w →
      ∃ j q, slotAt l j = some q ∧ ef k q.1 = true ∧ q.2 = w := by
  intro l
  induction l with
  | nil => intro k w h; simp [firstMatch] at h
  | cons s rest ih =>
    intro k w h
    cases s with
    | none =>
      rcases ih (by simpa [firstMatch] using h) with ⟨j, q, hq, hm, hv⟩
      exact ⟨j + 1, q, hq, hm, hv⟩
    | some p =>
      simp only [firstMatch] at h
      by_cases hef : ef k p.1 = true
      · rw [if_pos hef] at h
        exact ⟨0, p, rfl, hef, Option.some.inj h⟩
      · rw [if_neg hef] at h
        rcases ih h with ⟨j, q, hq, hm, hv⟩
        exact ⟨j + 1, q, hq, hm, hv⟩

theorem firstMatch_none {ef : K → K → Bool} :
    ∀ {l : List (Slot K V)} {k : K}, firstMatch ef l k = none →
      ∀ j q, slotAt l j = some q → ef k q.1 = false := by
  intro l
  induction l with
  | nil => intro k _ j q hq; rw [slotAt_nil] at hq; exact Option.noConfusion hq
  | cons s rest ih =>
    intro k h j q hq
    cases s with
    | none =>
      cases j with
      | zero => exact Option.noConfusion hq
      | succ j => exact ih (by simpa [firstMatch] using h) j q hq
    | some p =>
      simp only [firstMatch] at h
      by_cases hef : ef k p.1 = true
      · rw [if_pos hef] at h
        exact Option.noConfusion h
      · rw [if_neg hef] at h
        cases j with
        | zero =>
          obtain rfl : p = q := Option.some.inj hq
          simpa using hef
        | succ j => exact ih h j q hq

/-- On an invariant-satisfying table, `get` agrees with the first match in
entries-array order (there is at most one match). -/
theorem get_eq_firstMatch {t : XHashtable K V} (k : K)
    (hc : HashEqConsistent t.hash_fn t.eq_fn)
    (hlen : t.entries.length = t.capacity)
    (hcap : 0 < t.capacity)
    (hnodup : noDupKeysB t = true)
    (hchain : chainOkB t = true) :
    x_hashtable_get t k = firstMatch t.eq_fn t.entries k := by
  apply option_ext
  intro w
  rw [get_some_iff hc hlen hcap hnodup hchain]
  constructor
  · rintro ⟨i, p, hp, hm, hv⟩
    rcases hfm : firstMatch t.eq_fn t.entries k with _ | w'
    · rw [firstMatch_none hfm i p hp] at hm
      exact Bool.noConfusion hm
    · rcases firstMatch_some hfm with ⟨j, q, hq, hm', hv'⟩
      by_cases hji : j = i
      · subst hji
        obtain rfl : q = p := by
          rw [hq] at hp
          exact Option.some.inj hp
        rw [hv] at hv'
        rw [hv']
      · exfalso
        have h1 : t.eq_fn q.1 k = true := by rw [hc.symm]; exact hm'
        have h2 : t.eq_fn q.1 p.1 = true := hc.trans q.1 k p.1 h1 hm
        have := (noDupKeys_iff.1 hnodup) j i q p hji hq hp
        rw [this] at h2
        exact Bool.noConfusion h2
  · intro h
    rcases firstMatch_some h with ⟨j, q, hq, hm', hv'⟩
    exact ⟨j, q, hq, hm', hv'⟩

/-- A table whose slots are all holes reads `none` for every key. -/
theorem get_all_none {t : XHashtable K V} (k : K) (hcap : 0 < t.capacity)
    (hall : ∀ i, slotAt t.entries i = none) :
    x_hashtable_get t k = none := by
  rcases hpr : probe_index t k with ⟨b, i⟩
  cases b
  · simp [x_hashtable_get, hpr]
  · rcases probe_found_slot hcap hpr with ⟨_, p, hp, _⟩
    rw [hall i] at hp
    exact Option.noConfusion hp

/-! ## The rehash re-insertion loop -/

/-- On any run in which the accumulated count stays under 3/4 of the
capacity, the fueled re-insertion loop never triggers a nested rehash, so it
coincides with the plain `setEntry` fold for every fuel value. -/
theorem reinsert_fuel_eq_pure :
    ∀ (l : List (Slot K V)) (fuel : Nat) (acc : XHashtable K V),
      4 * (acc.count + occCount l) < 3 * acc.capacity →
      reinsertWith (x_hashtable_set_fuel fuel) l acc = reinsertPure l acc := by
  intro l
  induction l with
  | nil => intro fuel acc _; rfl
  | cons s rest ih =>
    intro fuel acc hbound
    cases s with
    | none =>
      show reinsertWith (x_hashtable_set_fuel fuel) rest acc = reinsertPure rest acc
      exact ih fuel acc (by simpa [occCount] using hbound)
    | some p =>
      have hocc : occCount (some p :: rest) = occCount rest + 1 := rfl
      rw [hocc] at hbound
      have hstep : x_hashtable_set_fuel fuel acc p.1 p.2 = setEntry acc p.1 p.2 := by
        cases fuel with
        | zero => rfl
        | succ fuel =>
          show setEntry (if 3 * acc.capacity ≤ 4 * acc.count then _ else acc) p.1 p.2 =
            setEntry acc p.1 p.2
          rw [if_neg (by omega)]
      show reinsertWith (x_hashtable_set_fuel fuel) rest
          (x_hashtable_set_fuel fuel acc p.1 p.2) = reinsertPure rest (setEntry acc p.1 p.2)
      rw [hstep]
      apply ih
      have h1 := setEntry_count_le acc p.1 p.2
      have h2 := setEntry_capacity acc p.1 p.2
      omega

/-- Main fold invariant of the rehash re-insertion loop: starting from a
table that abstractly holds the entries of `pre` and walking `suf`
(where `old = pre ++ suf` has pairwise-distinct occupied keys), the loop
ends in an invariant-satisfying table that abstractly holds all of `old`,
with one occupied slot per occupied slot of `old`. -/
theorem reinsertPure_fold {hfn : K → Nat} {ef : K → K → Bool}
    (hc : HashEqConsistent hfn ef) (old : List (Slot K V))
    (hdup : ∀ i j p q, i ≠ j → slotAt old i = some p → slotAt old j = some q →
      ef p.1 q.1 = false) :
    ∀ (suf pre : List (Slot K V)), old = pre ++ suf →
      ∀ acc : XHashtable K V,
        acc.hash_fn = hfn → acc.eq_fn = ef → TableInv acc →
        occCount old < acc.capacity →
        acc.count = occCount pre →
        (∀ k2, x_hashtable_get acc k2 = firstMatch ef pre k2) →
        TableInv (reinsertPure suf acc) ∧
        (reinsertPure suf acc).count = occCount old ∧
        (∀ k2, x_hashtable_get (reinsertPure suf acc) k2 = firstMatch ef old k2) ∧
        (reinsertPure suf acc).capacity = acc.capacity ∧
        (reinsertPure suf acc).hash_fn = hfn ∧
        (reinsertPure suf acc).eq_fn = ef := by
  intro suf
  induction suf with
  | nil =>
    intro pre hpre acc hhf hef hinv hroom hcount hget
    rw [List.append_nil] at hpre
    subst hpre
    exact ⟨hinv, hcount, hget, rfl, hhf, hef⟩
  | cons s rest ih =>
    intro pre hpre acc hhf hef hinv hroom hcount hget
    cases s with
    | none =>
      have hpre2 : old = (pre ++ [none]) ++ rest := by simpa using hpre
      have hcount2 : acc.count = occCount (pre ++ [none]) := by
        rw [occCount_append]
        simpa [occCount] using hcount
      have hget2 : ∀ k2, x_hashtable_get acc k2 = firstMatch ef (pre ++ [none]) k2 := by
        intro k2
        rw [firstMatch_append]
        rcases hfm : firstMatch ef pre k2 with _ | w
        · simp [firstMatch, hget k2, hfm]
        · simp [hget k2, hfm]
      exact ih (pre ++ [none]) hpre2 acc hhf hef hinv hroom hcount2 hget2
    | some p =>
      obtain ⟨hlen, hcap16, hcnt, hlt, hnodup, hchain⟩ := hinv
      have hcap : 0 < acc.capacity := by omega
      have hoccsplit : occCount old = occCount pre + occCount rest + 1 := by
        rw [hpre, occCount_append]
        simp [occCount]
        omega
      -- the key being re-inserted is absent from the prefix already moved
      have hnopre : ∀ j q, slotAt pre j = some q → ef p.1 q.1 = false := by
        intro j q hq
        have hjlen : j < pre.length := slotAt_lt_length hq
        have hqold : slotAt old j = some q := by
          rw [hpre, slotAt_append_left _ _ _ hjlen]
          exact hq
        have hpold : slotAt old pre.length = some p := by
          rw [hpre, show pre.length = pre.length + 0 from by omega, slotAt_append_right]
          rfl
        have := hdup pre.length j p q (by omega) hpold hqold
        exact this
      have hgetp : x_hashtable_get acc p.1 = none := by
        rcases hfm : x_hashtable_get acc p.1 with _ | w
        · rfl
        · exfalso
          rw [hget p.1] at hfm
          rcases firstMatch_some hfm with ⟨j, q, hq, hm, _⟩
          have h1 := hnopre j q hq
          rw [h1] at hm
          exact Bool.noConfusion hm
      have hroom2 : acc.count + 1 < acc.capacity := by omega
      have hcA : HashEqConsistent acc.hash_fn acc.eq_fn := by rw [hhf, hef]; exact hc
      have hinvA : TableInv acc := ⟨hlen, hcap16, hcnt, hlt, hnodup, hchain⟩
      have hinv2 := setEntry_inv (k := p.1) (v := p.2) hcA hinvA hroom2
      have hcount2 : (setEntry acc p.1 p.2).count = occCount (pre ++ [some p]) := by
        rw [setEntry_count p.1 p.2 hcap, hgetp, occCount_append]
        simp [occCount]
        exact hcount
      have hget2 : ∀ k2, x_hashtable_get (setEntry acc p.1 p.2) k2 =
          firstMatch ef (pre ++ [some p]) k2 := by
        intro k2
        rw [setEntry_get p.2 k2 hcA hinvA hroom2, hef, firstMatch_append]
        rcases hfm : firstMatch ef pre k2 with _ | w
        · simp only [firstMatch, hget k2, hfm]
        · -- an earlier match for k2 rules out a match with p (distinct keys)
          have hk2p : ef k2 p.1 = false := by
            rcases firstMatch_some hfm with ⟨j, q, hq, hm, _⟩
            cases hb : ef k2 p.1
            · rfl
            · exfalso
              have h1 : ef p.1 k2 = true := by rw [hc.symm]; exact hb
              have h2 : ef p.1 q.1 = true := hc.trans p.1 k2 q.1 h1 hm
              have h3 := hnopre j q hq
              rw [h3] at h2
              exact Bool.noConfusion h2
          rw [hk2p]
          simp only [Bool.false_eq_true, if_false, hget k2, hfm]
      have hpre2 : old = (pre ++ [some p]) ++ rest := by simpa using hpre
      have hroom3 : occCount old < (setEntry acc p.1 p.2).capacity := by
        rw [setEntry_capacity]
        omega
      have hhf2 : (setEntry acc p.1 p.2).hash_fn = hfn := by rw [setEntry_hash_fn, hhf]
      have hef2 : (setEntry acc p.1 p.2).eq_fn = ef := by rw [setEntry_eq_fn, hef]
      have := ih (pre ++ [some p]) hpre2 (setEntry acc p.1 p.2) hhf2 hef2 hinv2
        hroom3 hcount2 hget2
      rcases this with ⟨h1, h2, h3, h4, h5, h6⟩
      refine ⟨h1, h2, h3, ?_, h5, h6⟩
      show (reinsertPure rest (setEntry acc p.1 p.2)).capacity = acc.capacity
      rw [h4, setEntry_capacity]

/-- `x_hashtable_rehash` (as the pure fold): preserves the invariant and the
abstract contents, keeps the count, and doubles the capacity. -/
theorem rehash_pure_spec {t : XHashtable K V}
    (hc : HashEqConsistent t.hash_fn t.eq_fn) (hinv : TableInv t) :
    TableInv (reinsertPure t.entries (freshDouble t)) ∧
    (reinsertPure t.entries (freshDouble t)).count = t.count ∧
    (∀ k2, x_hashtable_get (reinsertPure t.entries (freshDouble t)) k2 =
      x_hashtable_get t k2) ∧
    (reinsertPure t.entries (freshDouble t)).capacity = 2 * t.capacity ∧
    (reinsertPure t.entries (freshDouble t)).hash_fn = t.hash_fn ∧
    (reinsertPure t.entries (freshDouble t)).eq_fn = t.eq_fn := by
  obtain ⟨hlen, hcap16, hcnt, hlt, hnodup, hchain⟩ := hinv
  have hcap : 0 < t.capacity := by omega
  have hfreshall : ∀ i, slotAt (freshDouble t).entries i = none := by
    intro i
    exact slotAt_replicate_none (2 * t.capacity) i
  have hfreshinv : TableInv (freshDouble t) := by
    refine ⟨by simp [freshDouble], by simp [freshDouble]; omega,
      by simp [freshDouble, occCount_replicate_none], by simp [freshDouble]; omega, ?_, ?_⟩
    · rw [noDupKeys_iff]
      intro i j p q hij hip hjq
      rw [hfreshall i] at hip
      exact Option.noConfusion hip
    · rw [chainOk_iff]
      intro i p hip m hm
      rw [hfreshall i] at hip
      exact Option.noConfusion hip
  have hfreshget : ∀ k2, x_hashtable_get (freshDouble t) k2 = firstMatch t.eq_fn [] k2 := by
    intro k2
    rw [get_all_none k2 (by simp [freshDouble]; omega) hfreshall]
    rfl
  have hdup := noDupKeys_iff.1 hnodup
  have hfold := reinsertPure_fold hc t.entries hdup t.entries []
    (by simp) (freshDouble t) rfl rfl hfreshinv
    (by simp [freshDouble]; omega)
    (by simp [freshDouble, occCount])
    hfreshget
  rcases hfold with ⟨h1, h2, h3, h4, h5, h6⟩
  refine ⟨h1, by rw [h2, ← hcnt], ?_, by rw [h4]; rfl, h5, h6⟩
  intro k2
  rw [h3 k2, ← get_eq_firstMatch k2 hc hlen hcap hnodup hchain]

/-- On any table whose occupied slots number fewer than 3/4 of the doubled
capacity (true of every well-formed state), `x_hashtable_set` is: rehash if
the load factor reached 0.75, then probe-and-insert. -/
theorem set_unfold {t : XHashtable K V} (k : K) (v : V)
    (hocc : 2 * occCount t.entries < 3 * t.capacity) :
    x_hashtable_set t k v =
      setEntry (if 3 * t.capacity ≤ 4 * t.count
        then reinsertPure t.entries (freshDouble t) else t) k v := by
  unfold x_hashtable_set
  simp only [x_hashtable_set_fuel]
  congr 1
  by_cases hcond : 3 * t.capacity ≤ 4 * t.count
  · rw [if_pos hcond, if_pos hcond]
    apply reinsert_fuel_eq_pure
    show 4 * ((freshDouble t).count + occCount t.entries) < 3 * (freshDouble t).capacity
    show 4 * (0 + occCount t.entries) < 3 * (2 * t.capacity)
    omega
  · rw [if_neg hcond, if_neg hcond]

/-- Master specification of one `x_hashtable_set` call on a well-formed
table: the invariant is preserved, the key written now reads as the new
value, all other keys read as before, and the count grows by one exactly
when the key was absent. -/
theorem set_spec {t : XHashtable K V} (k : K) (v : V)
    (hc : HashEqConsistent t.hash_fn t.eq_fn) (hinv : TableInv t) :
    TableInv (x_hashtable_set t k v) ∧
    (∀ k2, x_hashtable_get (x_hashtable_set t k v) k2 =
      if t.eq_fn k2 k = true then some v else x_hashtable_get t k2) ∧
    (x_hashtable_set t k v).count =
      t.count + (if (x_hashtable_get t k).isSome then 0 else 1) ∧
    (x_hashtable_set t k v).hash_fn = t.hash_fn ∧
    (x_hashtable_set t k v).eq_fn = t.eq_fn ∧
    t.capacity ≤ (x_hashtable_set t k v).capacity := by
  obtain ⟨hlen, hcap16, hcnt, hlt, hnodup, hchain⟩ := hinv
  have hinvT : TableInv t := ⟨hlen, hcap16, hcnt, hlt, hnodup, hchain⟩
  have hcap : 0 < t.capacity := by omega
  have hocc2 : 2 * occCount t.entries < 3 * t.capacity := by omega
  rw [set_unfold k v hocc2]
  by_cases hcond : 3 * t.capacity ≤ 4 * t.count
  · rw [if_pos hcond]
    rcases rehash_pure_spec hc hinvT with ⟨ri, rcount, rget, rcap, rhf, ref⟩
    have hc1 : HashEqConsistent (reinsertPure t.entries (freshDouble t)).hash_fn
        (reinsertPure t.entries (freshDouble t)).eq_fn := by
      rw [rhf, ref]
      exact hc
    have hroom1 : (reinsertPure t.entries (freshDouble t)).count + 1 <
        (reinsertPure t.entries (freshDouble t)).capacity := by
      rw [rcount, rcap]
      omega
    have hcap1 : 0 < (reinsertPure t.entries (freshDouble t)).capacity := by
      rw [rcap]
      omega
    refine ⟨setEntry_inv hc1 ri hroom1, ?_, ?_, ?_, ?_, ?_⟩
    · intro k2
      rw [setEntry_get v k2 hc1 ri hroom1, ref, rget k2]
    · rw [setEntry_count k v hcap1, rcount, rget k]
    · rw [setEntry_hash_fn, rhf]
    · rw [setEntry_eq_fn, ref]
    · rw [setEntry_capacity, rcap]
      omega
  · rw [if_neg hcond]
    have hroom : t.count + 1 < t.capacity := by omega
    refine ⟨setEntry_inv hc hinvT hroom, ?_, ?_, ?_, ?_, ?_⟩
    · intro k2
      rw [setEntry_get v k2 hc hinvT hroom]
    · rw [setEntry_count k v hcap]
    · rw [setEntry_hash_fn]
    · rw [setEntry_eq_fn]
    · rw [setEntry_capacity]

/-! ## The freshly created table -/

theorem create_inv (hf : K → Nat) (ef : K → K → Bool) :
    TableInv (x_hashtable_create (V := V) hf ef) := by
  refine ⟨rfl, Nat.le_refl 16,
    (occCount_replicate_none 16).symm, Nat.zero_lt_succ 15, ?_, ?_⟩
  · rw [noDupKeys_iff]
    intro i j p q hij hip hjq
    rw [show (x_hashtable_create (V := V) hf ef).entries = List.replicate 16 none from rfl,
      slotAt_replicate_none] at hip
    exact Option.noConfusion hip
  · rw [chainOk_iff]
    intro i p hip m hm
    rw [show (x_hashtable_create (V := V) hf ef).entries = List.replicate 16 none from rfl,
      slotAt_replicate_none] at hip
    exact Option.noConfusion hip

theorem create_get (hf : K → Nat) (ef : K → K → Bool) (k : K) :
    x_hashtable_get (x_hashtable_create (V := V) hf ef) k = none :=
  get_all_none k (Nat.zero_lt_succ 15) (fun i => slotAt_replicate_none 16 i)

/-! ## Abstract association-list model -/

theorem lookupM_map_nomatch {hfn : K → Nat} {ef : K → K → Bool}
    (hc : HashEqConsistent hfn ef)
    {k k2 : K} (v : V) (h2 : ef k2 k = false) :
    ∀ m : List (K × V),
      lookupM ef (m.map (fun p => if ef k p.1 = true then (p.1, v) else p)) k2 =
        lookupM ef m k2 := by
  intro m
  induction m with
  | nil => rfl
  | cons q m ih =>
    simp only [List.map_cons, lookupM]
    by_cases hq : ef k q.1 = true
    · rw [if_pos hq]
      by_cases hq2 : ef k2 q.1 = true
      · exfalso
        have h3 : ef q.1 k = true := by rw [hc.symm]; exact hq
        have := hc.trans k2 q.1 k hq2 h3
        rw [h2] at this
        exact Bool.noConfusion this
      · rw [if_neg hq2, if_neg hq2]
        exact ih
    · rw [if_neg hq]
      by_cases hq2 : ef k2 q.1 = true
      · rw [if_pos hq2, if_pos hq2]
      · rw [if_neg hq2, if_neg hq2]
        exact ih

/-- Abstract update/lookup law mirroring `set` then `get`. -/
theorem lookupM_updM {hfn : K → Nat} {ef : K → K → Bool}
    (hc : HashEqConsistent hfn ef)
    (k k2 : K) (v : V) :
    ∀ m : List (K × V),
      lookupM ef (updM ef m k v) k2 =
        if ef k2 k = true then some v else lookupM ef m k2 := by
  intro m
  induction m with
  | nil =>
    show lookupM ef [(k, v)] k2 = if ef k2 k = true then some v else none
    simp only [lookupM]
  | cons p m ih =>
    by_cases h1 : ef k p.1 = true
    · -- the head matches the written key: its value is replaced in place
      have hupd : updM ef (p :: m) k v =
          (p.1, v) :: m.map (fun q => if ef k q.1 = true then (q.1, v) else q) := by
        unfold updM
        rw [if_pos (by simp [lookupM, h1])]
        simp [h1]
      rw [hupd]
      by_cases h2 : ef k2 k = true
      · have h3 : ef k2 p.1 = true := hc.trans k2 k p.1 h2 h1
        rw [if_pos h2]
        simp [lookupM, h3]
      · have h3 : ef k2 p.1 = false := by
          cases hb : ef k2 p.1
          · rfl
          · exfalso
            have h4 : ef p.1 k = true := by rw [hc.symm]; exact h1
            have := hc.trans k2 p.1 k hb h4
            rw [this] at h2
            exact absurd rfl h2
        rw [if_neg h2]
        simp only [lookupM]
        rw [if_neg (show ¬(ef k2 (p.1, v).1 = true) from by simp [h3]),
          if_neg (show ¬(ef k2 p.1 = true) from by simp [h3])]
        exact lookupM_map_nomatch hc v (by simpa using h2) m
    · -- the head does not match the written key
      have hx : ef k2 p.1 = true → ef k2 k = false := by
        intro h3
        cases hb : ef k2 k
        · rfl
        · exfalso
          have h4 : ef k k2 = true := by rw [hc.symm]; exact hb
          exact h1 (hc.trans k k2 p.1 h4 h3)
      have hhead : lookupM ef (p :: m) k = lookupM ef m k := by
        simp [lookupM, h1]
      by_cases hcond : (lookupM ef m k).isSome = true
      · -- the written key lives deeper in the list
        have hupd : updM ef (p :: m) k v =
            p :: m.map (fun q => if ef k q.1 = true then (q.1, v) else q) := by
          unfold updM
          rw [if_pos (by rw [hhead]; exact hcond)]
          simp [h1]
        have ihm : lookupM ef
            (m.map (fun q => if ef k q.1 = true then (q.1, v) else q)) k2 =
            if ef k2 k = true then some v else lookupM ef m k2 := by
          have hu : updM ef m k v =
              m.map (fun q => if ef k q.1 = true then (q.1, v) else q) := by
            unfold updM
            rw [if_pos hcond]
          rw [← hu]
          exact ih
        rw [hupd]
        simp only [lookupM]
        by_cases h3 : ef k2 p.1 = true
        · have h2 := hx h3
          rw [if_pos h3, if_pos h3, if_neg (by simp [h2])]
        · rw [if_neg h3, if_neg h3, ihm]
      · -- the written key is fresh: it is appended at the end
        have hupd : updM ef (p :: m) k v = p :: (m ++ [(k, v)]) := by
          unfold updM
          rw [if_neg (by rw [hhead]; exact hcond)]
          rfl
        have ihm : lookupM ef (m ++ [(k, v)]) k2 =
            if ef k2 k = true then some v else lookupM ef m k2 := by
          have hu : updM ef m k v = m ++ [(k, v)] := by
            unfold updM
            rw [if_neg hcond]
          rw [← hu]
          exact ih
        rw [hupd]
        simp only [lookupM]
        by_cases h3 : ef k2 p.1 = true
        · have h2 := hx h3
          rw [if_pos h3, if_pos h3, if_neg (by simp [h2])]
        · rw [if_neg h3, if_neg h3, ihm]

/-- The abstract map length mirrors `count`: unchanged on an overwrite,
one more on a fresh key. -/
theorem length_updM (ef : K → K → Bool) (m : List (K × V)) (k : K) (v : V) :
    (updM ef m k v).length =
      m.length + (if (lookupM ef m k).isSome then 0 else 1) := by
  by_cases hcond : (lookupM ef m k).isSome = true
  · simp [updM, hcond]
  · simp only [updM, hcond, if_false]
    simp at hcond
    simp [hcond]

/-- Folding `set` over a well-formed table refines folding `updM` over the
abstract association list. -/
theorem runSets_fold_spec {hf : K → Nat} {ef : K → K → Bool}
    (hc : HashEqConsistent hf ef) :
    ∀ (ops : List (K × V)) (t : XHashtable K V) (m : List (K × V)),
      t.hash_fn = hf → t.eq_fn = ef → TableInv t →
      (∀ k, x_hashtable_get t k = lookupM ef m k) →
      t.count = m.length →
      TableInv (ops.foldl (fun t p => x_hashtable_set t p.1 p.2) t) ∧
      (ops.foldl (fun t p => x_hashtable_set t p.1 p.2) t).hash_fn = hf ∧
      (ops.foldl (fun t p => x_hashtable_set t p.1 p.2) t).eq_fn = ef ∧
      (∀ k, x_hashtable_get (ops.foldl (fun t p => x_hashtable_set t p.1 p.2) t) k =
        lookupM ef (ops.foldl (fun m p => updM ef m p.1 p.2) m) k) ∧
      (ops.foldl (fun t p => x_hashtable_set t p.1 p.2) t).count =
        (ops.foldl (fun m p => updM ef m p.1 p.2) m).length := by
  intro ops
  induction ops with
  | nil =>
    intro t m hhf hef hinv hget hcount
    exact ⟨hinv, hhf, hef, hget, hcount⟩
  | cons op rest ih =>
    intro t m hhf hef hinv hget hcount
    simp only [List.foldl_cons]
    have hcT : HashEqConsistent t.hash_fn t.eq_fn := by rw [hhf, hef]; exact hc
    rcases set_spec op.1 op.2 hcT hinv with ⟨s1, s2, s3, s4, s5, _⟩
    apply ih (x_hashtable_set t op.1 op.2) (updM ef m op.1 op.2)
    · rw [s4, hhf]
    · rw [s5, hef]
    · exact s1
    · intro k
      rw [s2 k, hef, lookupM_updM hc op.1 k op.2 m, hget k]
    · rw [s3, hget op.1, hcount, length_updM]

/-- `runSets` refines `runM`. -/
theorem runSets_spec {hf : K → Nat} {ef : K → K → Bool}
    (hc : HashEqConsistent hf ef) (ops : List (K × V)) :
    TableInv (runSets hf ef ops) ∧
    (runSets hf ef ops).hash_fn = hf ∧
    (runSets hf ef ops).eq_fn = ef ∧
    (∀ k, x_hashtable_get (runSets hf ef ops) k = lookupM ef (runM ef ops) k) ∧
    (runSets hf ef ops).count = (runM ef ops).length := by
  unfold runSets runM
  exact runSets_fold_spec hc ops (x_hashtable_create hf ef) [] rfl rfl
    (create_inv hf ef) (fun k => by rw [create_get]; rfl) rfl

/-- Folding `updM` computes the most recent binding. -/
theorem lookupM_foldl_updM {hfn : K → Nat} {ef : K → K → Bool}
    (hc : HashEqConsistent hfn ef) :
    ∀ (ops m : List (K × V)) (k : K),
      lookupM ef (ops.foldl (fun m p => updM ef m p.1 p.2) m) k =
        match specLookup ef ops k with
        | some v => some v
        | none => lookupM ef m k := by
  intro ops
  induction ops with
  | nil =>
    intro m k
    simp [specLookup]
  | cons op rest ih =>
    intro m k
    simp only [List.foldl_cons, specLookup]
    rw [ih (updM ef m op.1 op.2) k, lookupM_updM hc op.1 k op.2 m]
    rcases hsp : specLookup ef rest k with _ | w
    · simp only [hsp]
      by_cases h : ef k op.1 = true
      · rw [if_pos h, if_pos h]
      · rw [if_neg h, if_neg h]
    · simp only [hsp]

theorem lookupM_runM_eq_specLookup {hfn : K → Nat} {ef : K → K → Bool}
    (hc : HashEqConsistent hfn ef) (ops : List (K × V)) (k : K) :
    lookupM ef (runM ef ops) k = specLookup ef ops k := by
  unfold runM
  rw [lookupM_foldl_updM hc ops [] k]
  rcases hsp : specLookup ef ops k with _ | w <;> simp [lookupM]

/-- Appending only fresh keys grows the abstract map by one entry each. -/
theorem runM_length_of_pairwise {hfn : K → Nat} {ef : K → K → Bool}
    (hc : HashEqConsistent hfn ef) :
    ∀ (ops m : List (K × V)),
      (∀ q ∈ ops, lookupM ef m q.1 = none) →
      ops.Pairwise (fun p q => ef p.1 q.1 = false) →
      (ops.foldl (fun m p => updM ef m p.1 p.2) m).length = m.length + ops.length := by
  intro ops
  induction ops with
  | nil =>
    intro m _ _
    simp
  | cons op rest ih =>
    intro m habs hpw
    simp only [List.foldl_cons]
    rcases List.pairwise_cons.1 hpw with ⟨hop, hrest⟩
    have h1 : (updM ef m op.1 op.2).length = m.length + 1 := by
      rw [length_updM, habs op (by simp)]
      rfl
    have h2 : ∀ q ∈ rest, lookupM ef (updM ef m op.1 op.2) q.1 = none := by
      intro q hq
      rw [lookupM_updM hc op.1 q.1 op.2 m]
      have h3 : ef q.1 op.1 = false := by
        rw [hc.symm]
        exact hop q hq
      rw [if_neg (by simp [h3])]
      exact habs q (by simp [hq])
    rw [ih (updM ef m op.1 op.2) h2 hrest, h1]
    simp
    omega

/-! ## `remove` equations -/

theorem remove_eq_found {t : XHashtable K V} {k : K} {i : Nat}
    (h : probe_index t k = (true, i)) :
    x_hashtable_remove t k =
      { ok := true
        table := { t with entries := t.entries.set i none, count := t.count - 1 }
        released := 2 } := by
  simp [x_hashtable_remove, h]

theorem remove_eq_notfound {t : XHashtable K V} {k : K} {i : Nat}
    (h : probe_index t k = (false, i)) :
    x_hashtable_remove t k = { ok := false, table := t, released := 0 } := by
  simp [x_hashtable_remove, h]

/-! ## The weak invariant holds on every reachable state -/

theorem setEntry_weak {t : XHashtable K V} (k : K) (v : V)
    (hw : WeakInv t) (hroom : t.count + 1 < t.capacity) :
    WeakInv (setEntry t k v) := by
  obtain ⟨hlen, hcap16, hcnt, hlt⟩ := hw
  have hcap : 0 < t.capacity := by omega
  rcases hpr : probe_index t k with ⟨b, i⟩
  cases b
  · rcases probe_false_slot_none hcap hlen (by omega) hpr with ⟨hilt, hnone⟩
    have hilen : i < t.entries.length := by omega
    rw [setEntry_eq_notfound hpr]
    have hset := occCount_set t.entries i (some (k, v)) hilen
    rw [hnone] at hset
    simp at hset
    exact ⟨by simpa using hlen, hcap16, by simp only []; omega, by simpa using hroom⟩
  · rcases probe_found_slot hcap hpr with ⟨hilt, p, hp, _⟩
    have hilen : i < t.entries.length := by omega
    rw [setEntry_eq_found hpr hp]
    have hset := occCount_set t.entries i (some (p.1, v)) hilen
    rw [hp] at hset
    simp at hset
    exact ⟨by simpa using hlen, hcap16, by simp only []; omega, by simpa using hlt⟩

theorem reinsertPure_weak :
    ∀ (suf : List (Slot K V)) (acc : XHashtable K V),
      WeakInv acc → acc.count + occCount suf < acc.capacity →
      WeakInv (reinsertPure suf acc) ∧
      (reinsertPure suf acc).count ≤ acc.count + occCount suf ∧
      (reinsertPure suf acc).capacity = acc.capacity := by
  intro suf
  induction suf with
  | nil =>
    intro acc hw _
    exact ⟨hw, by simp [reinsertPure], rfl⟩
  | cons s rest ih =>
    intro acc hw hroom
    cases s with
    | none =>
      have : occCount (none :: rest) = occCount rest := rfl
      rw [this] at hroom
      exact ih acc hw hroom
    | some p =>
      have hocc : occCount (some p :: rest) = occCount rest + 1 := rfl
      rw [hocc] at hroom
      have hw2 := setEntry_weak p.1 p.2 hw (by omega)
      have hcle := setEntry_count_le acc p.1 p.2
      have hcap := setEntry_capacity acc p.1 p.2
      have hroom2 : (setEntry acc p.1 p.2).count + occCount rest <
          (setEntry acc p.1 p.2).capacity := by omega
      rcases ih (setEntry acc p.1 p.2) hw2 hroom2 with ⟨h1, h2, h3⟩
      refine ⟨h1, ?_, ?_⟩
      · show (reinsertPure rest (setEntry acc p.1 p.2)).count ≤
          acc.count + (occCount rest + 1)
        omega
      · show (reinsertPure rest (setEntry acc p.1 p.2)).capacity = acc.capacity
        omega

theorem set_weak {t : XHashtable K V} (k : K) (v : V) (hw : WeakInv t) :
    WeakInv (x_hashtable_set t k v) := by
  obtain ⟨hlen, hcap16, hcnt, hlt⟩ := hw
  rw [set_unfold k v (by omega)]
  by_cases hcond : 3 * t.capacity ≤ 4 * t.count
  · rw [if_pos hcond]
    have hwfresh : WeakInv (freshDouble t) := by
      refine ⟨?_, ?_, ?_, ?_⟩
      · show (List.replicate (2 * t.capacity) (none : Slot K V)).length = 2 * t.capacity
        simp
      · show 16 ≤ 2 * t.capacity
        omega
      · show 0 = occCount (List.replicate (2 * t.capacity) (none : Slot K V))
        rw [occCount_replicate_none]
      · show 0 < 2 * t.capacity
        omega
    have hroomf : (freshDouble t).count + occCount t.entries < (freshDouble t).capacity := by
      show 0 + occCount t.entries < 2 * t.capacity
      omega
    rcases reinsertPure_weak t.entries (freshDouble t) hwfresh hroomf with ⟨h1, h2, h3⟩
    apply setEntry_weak k v h1
    have h4 : (reinsertPure t.entries (freshDouble t)).count ≤ t.count := by
      have : (freshDouble t).count = 0 := rfl
      omega
    have h5 : (reinsertPure t.entries (freshDouble t)).capacity = 2 * t.capacity := h3
    omega
  · rw [if_neg hcond]
    exact setEntry_weak k v ⟨hlen, hcap16, hcnt, hlt⟩ (by omega)

theorem remove_weak {t : XHashtable K V} (k : K) (hw : WeakInv t) :
    WeakInv (x_hashtable_remove t k).table := by
  obtain ⟨hlen, hcap16, hcnt, hlt⟩ := hw
  have hcap : 0 < t.capacity := by omega
  rcases hpr : probe_index t k with ⟨b, i⟩
  cases b
  · rw [remove_eq_notfound hpr]
    exact ⟨hlen, hcap16, hcnt, hlt⟩
  · rcases probe_found_slot hcap hpr with ⟨hilt, p, hp, _⟩
    have hilen : i < t.entries.length := by omega
    rw [remove_eq_found hpr]
    have hset := occCount_set t.entries i (none : Slot K V) hilen
    rw [hp] at hset
    simp at hset
    refine ⟨by simpa using hlen, hcap16, ?_, ?_⟩
    · show t.count - 1 = occCount (t.entries.set i none)
      omega
    · show t.count - 1 < t.capacity
      omega

theorem reachable_weakInv {t : XHashtable K V} (h : Reachable t) : WeakInv t := by
  induction h with
  | create hf ef =>
    exact ⟨rfl, Nat.le_refl 16, (occCount_replicate_none 16).symm, Nat.zero_lt_succ 15⟩
  | set t k v _ ih => exact set_weak k v ih
  | remove t k _ ih => exact remove_weak k ih

/-! ## Arena lemmas -/

theorem getD_map {A B : Type} (f : A → B) :
    ∀ (l : List A) (i : Nat) (d : A) (d2 : B), i < l.length →
      (l.map f).getD i d2 = f (l.getD i d) := by
  intro l
  induction l with
  | nil => intro i d d2 hi; simp at hi
  | cons a rest ih =>
    intro i d d2 hi
    cases i with
    | zero => rfl
    | succ i => exact ih i d d2 (by simpa using hi)

/-- The first-fit scan of `x_arena_alloc` is exactly: find the first chunk
index with enough room, serve at its old `used` offset, bump only that
chunk. -/
theorem allocScan_eq :
    ∀ (l : List XArenaChunk) (size : Nat),
      allocScan l size =
        match l.findIdx? (fun c => size ≤ c.capacity - c.used) with
        | some i =>
          some (i, (l.getD i ⟨0, 0, []⟩).used,
            l.set i { l.getD i ⟨0, 0, []⟩ with
              used := (l.getD i ⟨0, 0, []⟩).used + size })
        | none => none := by
  intro l
  induction l with
  | nil => intro size; rfl
  | cons c rest ih =>
    intro size
    rw [List.findIdx?_cons, List.findIdx?_succ]
    by_cases hfit : size ≤ c.capacity - c.used
    · rw [if_pos (by simpa using hfit)]
      simp only [allocScan, if_pos hfit]
      rfl
    · rw [if_neg (by simpa using hfit)]
      simp only [allocScan, if_neg hfit]
      rw [ih size]
      rcases hidx : rest.findIdx? (fun c => decide (size ≤ c.capacity - c.used)) with _ | i
      · simp [hidx]
      · simp only [hidx, Option.map_some]
        rfl

/-! ## Consistent hash/equality pair on `Nat` used by the witnesses -/

theorem natIdConsistent :
    HashEqConsistent (fun n : Nat => n) (fun a b : Nat => a == b) := by
  refine ⟨fun a => by simp, ?_, ?_, ?_⟩
  · intro a b
    by_cases h : a = b
    · subst h; rfl
    · have hba : ¬b = a := fun e => h e.symm
      have h1 : (a == b) = false := by simp [h]
      have h2 : (b == a) = false := by simp [hba]
      rw [h1, h2]
  · intro a b c hab hbc
    have h1 : a = b := by simpa using hab
    subst h1
    exact hbc
  · intro a b h
    have h1 : a = b := by simpa using h
    simp [h1]

/-! ## The claims -/

/-- C1: for every table created with a hash function and equality function
that are consistent with each other, and every finite sequence of `set`
operations (no removes in between), a subsequent `get k` returns found with
exactly the value of the most recent `set` on a key the equality function
identifies with `k` (and not-found if there was none) — including when the
sequence crosses one or more load-factor-triggered rehashes. -/
theorem C1_get_returns_most_recent_set {K V : Type} (hf : K → Nat) (ef : K → K → Bool)
    (hc : HashEqConsistent hf ef) (ops : List (K × V)) (k : K) :
    x_hashtable_get (runSets hf ef ops) k = specLookup ef ops k := by
  rcases runSets_spec hc ops with ⟨_, _, _, hget, _⟩
  rw [hget k, lookupM_runM_eq_specLookup hc ops k]

/-- Witness for C1 on a run of 13 distinct keys, which crosses the
load-factor rehash at capacity 16 (the 13th insertion sees
`12/16 = 0.75`). -/
theorem C1_witness :
    HashEqConsistent (fun n : Nat => n) (fun a b : Nat => a == b) ∧
    x_hashtable_get (runSets (fun n : Nat => n) (fun a b : Nat => a == b)
      ((List.range 13).map (fun i => (i, i + 100)))) 2 = some 102 :=
  ⟨natIdConsistent,
    (C1_get_returns_most_recent_set _ _ natIdConsistent
      ((List.range 13).map (fun i => (i, i + 100))) 2).trans (by decide)⟩

/-- C2: with keys 1, 17, 33 (all hashing to bucket 1 of the initial
16-slot table, occupying slots 1, 2, 3 in probe order) and 17 removed,
`get 33` and `has 33` report not-found even though the entry (33, 30) is
still stored, occupied, at slot 3 — removal clears its slot without
shifting or re-probing the entries displaced past it. -/
theorem C2_remove_orphans_displaced_key :
    ((runSets (fun n : Nat => n) (fun a b : Nat => a == b)
        [((1:Nat), (10:Nat)), (17, 20), (33, 30)]).hash_fn 1 %
        (runSets (fun n : Nat => n) (fun a b : Nat => a == b)
        [((1:Nat), (10:Nat)), (17, 20), (33, 30)]).capacity = 1 ∧
      (runSets (fun n : Nat => n) (fun a b : Nat => a == b)
        [((1:Nat), (10:Nat)), (17, 20), (33, 30)]).hash_fn 17 % 16 = 1 ∧
      (runSets (fun n : Nat => n) (fun a b : Nat => a == b)
        [((1:Nat), (10:Nat)), (17, 20), (33, 30)]).hash_fn 33 % 16 = 1) ∧
    (slotAt (runSets (fun n : Nat => n) (fun a b : Nat => a == b)
        [((1:Nat), (10:Nat)), (17, 20), (33, 30)]).entries 1 = some (1, 10) ∧
      slotAt (runSets (fun n : Nat => n) (fun a b : Nat => a == b)
        [((1:Nat), (10:Nat)), (17, 20), (33, 30)]).entries 2 = some (17, 20) ∧
      slotAt (runSets (fun n : Nat => n) (fun a b : Nat => a == b)
        [((1:Nat), (10:Nat)), (17, 20), (33, 30)]).entries 3 = some (33, 30)) ∧
    (x_hashtable_remove (runSets (fun n : Nat => n) (fun a b : Nat => a == b)
        [((1:Nat), (10:Nat)), (17, 20), (33, 30)]) 17).ok = true ∧
    x_hashtable_get (x_hashtable_remove (runSets (fun n : Nat => n)
        (fun a b : Nat => a == b)
        [((1:Nat), (10:Nat)), (17, 20), (33, 30)]) 17).table 33 = none ∧
    x_hashtable_has (x_hashtable_remove (runSets (fun n : Nat => n)
        (fun a b : Nat => a == b)
        [((1:Nat), (10:Nat)), (17, 20), (33, 30)]) 17).table 33 = false ∧
    slotAt (x_hashtable_remove (runSets (fun n : Nat => n) (fun a b : Nat => a == b)
        [((1:Nat), (10:Nat)), (17, 20), (33, 30)]) 17).table.entries 3 =
      some (33, 30) := by
  decide

/-- C3: on every table state reachable by create/set/get/has/remove,
`count ≤ capacity`, and in fact occupancy never reaches 100%
(`count < capacity`): `set` doubles the capacity by a rehash before
inserting whenever `count / capacity ≥ 0.75`. -/
theorem C3_count_lt_capacity {K V : Type} (t : XHashtable K V) (h : Reachable t) :
    t.count ≤ t.capacity ∧ t.count < t.capacity := by
  rcases reachable_weakInv h with ⟨_, _, _, hlt⟩
  exact ⟨Nat.le_of_lt hlt, hlt⟩

/-- Witness for C3 on a small reachable state: create, two sets, one
remove. -/
theorem C3_witness :
    Reachable (x_hashtable_remove (x_hashtable_set (x_hashtable_set
      (x_hashtable_create (fun n : Nat => n) (fun a b : Nat => a == b) (V := Nat))
      1 2) 3 4) 1).table ∧
    (x_hashtable_remove (x_hashtable_set (x_hashtable_set
      (x_hashtable_create (fun n : Nat => n) (fun a b : Nat => a == b) (V := Nat))
      1 2) 3 4) 1).table.count <
    (x_hashtable_remove (x_hashtable_set (x_hashtable_set
      (x_hashtable_create (fun n : Nat => n) (fun a b : Nat => a == b) (V := Nat))
      1 2) 3 4) 1).table.capacity :=
  ⟨Reachable.remove _ 1 (Reachable.set _ 3 4 (Reachable.set _ 1 2
      (Reachable.create _ _))),
    (C3_count_lt_capacity _ (Reachable.remove _ 1 (Reachable.set _ 3 4
      (Reachable.set _ 1 2 (Reachable.create _ _))))).2⟩

/-- C4: `x_hashtable_set` returns `true` for every non-null table handle
and every key and value, and `false` exactly on a null handle; the C body
contains no allocation-failure check, so the returned flag is independent
of the allocator (allocation is total in this model). -/
theorem C4_set_returns_true_iff_nonnull {K V : Type} (t : Option (XHashtable K V))
    (k : K) (v : V) :
    (x_hashtable_set_checked t k v).1 = t.isSome := by
  cases t <;> rfl

/-- C5: starting from an empty table with consistent hash/equality
functions, N `set` calls on pairwise-distinct keys leave `count = N`; and
a `set` on a key already present leaves `count` unchanged. -/
theorem C5_count_distinct_and_duplicate {K V : Type} (hf : K → Nat) (ef : K → K → Bool)
    (hc : HashEqConsistent hf ef) :
    (∀ ops : List (K × V), ops.Pairwise (fun p q => ef p.1 q.1 = false) →
      x_hashtable_count (runSets hf ef ops) = ops.length) ∧
    (∀ (t : XHashtable K V) (k : K) (v : V),
      t.hash_fn = hf → t.eq_fn = ef → TableInv t → x_hashtable_has t k = true →
      x_hashtable_count (x_hashtable_set t k v) = x_hashtable_count t) := by
  constructor
  · intro ops hpw
    rcases runSets_spec hc ops with ⟨_, _, _, _, hcount⟩
    show (runSets hf ef ops).count = ops.length
    rw [hcount]
    unfold runM
    rw [runM_length_of_pairwise hc ops []
      (fun q _ => rfl) hpw]
    simp
  · intro t k v hhf hef hinv hhas
    have hcT : HashEqConsistent t.hash_fn t.eq_fn := by rw [hhf, hef]; exact hc
    obtain ⟨hlen, hcap16, hcnt, hlt, hnodup, hchain⟩ := hinv
    have hcap : 0 < t.capacity := by omega
    rcases set_spec k v hcT ⟨hlen, hcap16, hcnt, hlt, hnodup, hchain⟩ with
      ⟨_, _, s3, _, _, _⟩
    show (x_hashtable_set t k v).count = t.count
    have hg : (x_hashtable_get t k).isSome = true := by
      rw [get_isSome_eq_has hcap]
      exact hhas
    rw [s3, hg]
    simp

/-- Witness for C5 on three distinct keys. -/
theorem C5_witness :
    HashEqConsistent (fun n : Nat => n) (fun a b : Nat => a == b) ∧
    List.Pairwise (fun p q : Nat × Nat => ((fun a b : Nat => a == b) p.1 q.1) = false)
      [((1:Nat), (10:Nat)), (2, 20), (3, 30)] ∧
    x_hashtable_count (runSets (fun n : Nat => n) (fun a b : Nat => a == b)
      [((1:Nat), (10:Nat)), (2, 20), (3, 30)]) = 3 :=
  ⟨natIdConsistent, by decide,
    (C5_count_distinct_and_duplicate _ _ natIdConsistent).1
      [((1:Nat), (10:Nat)), (2, 20), (3, 30)] (by decide)⟩

/-- C6: on every well-formed table in which key `k` is absent,
`set k v` then `remove k` makes the remove return `true`, a subsequent
`has k` return `false`, and `count` return to its pre-`set` value (the
`set` increments it by exactly one and the remove decrements it by exactly
one). -/
theorem C6_set_remove_roundtrip {K V : Type} (t : XHashtable K V) (k : K) (v : V)
    (hc : HashEqConsistent t.hash_fn t.eq_fn) (hinv : TableInv t)
    (habs : x_hashtable_has t k = false) :
    (x_hashtable_remove (x_hashtable_set t k v) k).ok = true ∧
    x_hashtable_has (x_hashtable_remove (x_hashtable_set t k v) k).table k = false ∧
    (x_hashtable_remove (x_hashtable_set t k v) k).table.count = t.count ∧
    (x_hashtable_set t k v).count = t.count + 1 := by
  obtain ⟨hlen, hcap16, hcnt, hlt, hnodup, hchain⟩ := hinv
  have hinvT : TableInv t := ⟨hlen, hcap16, hcnt, hlt, hnodup, hchain⟩
  have hcap : 0 < t.capacity := by omega
  have hget0 : x_hashtable_get t k = none := by
    rw [get_eq_none_iff_probe_false hcap, ← has_eq_probe]
    exact habs
  rcases set_spec k v hc hinvT with ⟨s1, s2, s3, _, s5, _⟩
  have hcnt1 : (x_hashtable_set t k v).count = t.count + 1 := by
    rw [s3, hget0]
    rfl
  have hget1 : x_hashtable_get (x_hashtable_set t k v) k = some v := by
    rw [s2 k, if_pos (hc.refl k)]
  obtain ⟨l1, c161, cnt1, lt1, nd1, ch1⟩ := s1
  have hcap1 : 0 < (x_hashtable_set t k v).capacity := by omega
  have hhas1 : x_hashtable_has (x_hashtable_set t k v) k = true := by
    rw [← get_isSome_eq_has hcap1, hget1]
    rfl
  rcases hpr1 : probe_index (x_hashtable_set t k v) k with ⟨b, i⟩
  cases b
  · rw [has_eq_probe, hpr1] at hhas1
    exact absurd hhas1 (by simp)
  · rcases probe_found_slot hcap1 hpr1 with ⟨hilt1, p1, hp1, hm1⟩
    rw [remove_eq_found hpr1]
    refine ⟨rfl, ?_, ?_, hcnt1⟩
    · -- `has` on the removed table is false: the cleared slot was the
      -- unique slot whose key matched `k`
      rcases hpr2 : probe_index
          { x_hashtable_set t k v with
            entries := (x_hashtable_set t k v).entries.set i none,
            count := (x_hashtable_set t k v).count - 1 } k with ⟨b2, j⟩
      cases b2
      · rw [has_eq_probe, hpr2]
      · exfalso
        have hcap2 : (0 : Nat) <
            ({ x_hashtable_set t k v with
              entries := (x_hashtable_set t k v).entries.set i none,
              count := (x_hashtable_set t k v).count - 1 }).capacity := hcap1
        rcases probe_found_slot hcap2 hpr2 with ⟨hjlt, q, hq, hmq⟩
        have hent : ({ x_hashtable_set t k v with
            entries := (x_hashtable_set t k v).entries.set i none,
            count := (x_hashtable_set t k v).count - 1 }).entries =
            (x_hashtable_set t k v).entries.set i none := rfl
        rw [hent] at hq
        have hji : j ≠ i := by
          intro hj
          rw [hj, slotAt_set_self _ _ _ (by omega)] at hq
          exact Option.noConfusion hq
        rw [slotAt_set_ne _ _ _ _ (fun h => hji h.symm)] at hq
        have hmq2 : t.eq_fn k q.1 = true := by
          rw [← s5]
          exact hmq
        have hm12 : t.eq_fn k p1.1 = true := by
          rw [← s5]
          exact hm1
        have hqp : t.eq_fn q.1 p1.1 = true := by
          have hqk : t.eq_fn q.1 k = true := by rw [hc.symm]; exact hmq2
          exact hc.trans q.1 k p1.1 hqk hm12
        have hdup := (noDupKeys_iff.1 nd1) j i q p1 hji hq hp1
        rw [s5] at hdup
        rw [hdup] at hqp
        exact Bool.noConfusion hqp
    · show (x_hashtable_set t k v).count - 1 = t.count
      omega

/-- Witness for C6: a one-entry table, then set/remove of the absent
key 2. -/
theorem C6_witness :
    TableInv (runSets (fun n : Nat => n) (fun a b : Nat => a == b)
      [((1:Nat), (10:Nat))]) ∧
    x_hashtable_has (runSets (fun n : Nat => n) (fun a b : Nat => a == b)
      [((1:Nat), (10:Nat))]) 2 = false ∧
    (x_hashtable_remove (x_hashtable_set (runSets (fun n : Nat => n)
      (fun a b : Nat => a == b) [((1:Nat), (10:Nat))]) 2 20) 2).ok = true ∧
    x_hashtable_has (x_hashtable_remove (x_hashtable_set
      (runSets (fun n : Nat => n) (fun a b : Nat => a == b)
      [((1:Nat), (10:Nat))]) 2 20) 2).table 2 = false :=
  ⟨by decide, by decide,
    (C6_set_remove_roundtrip _ 2 20 natIdConsistent (by decide) (by decide)).1,
    (C6_set_remove_roundtrip _ 2 20 natIdConsistent (by decide) (by decide)).2.1⟩

/-- C7: `x_arena_alloc` returns null exactly for a zero size or a null
arena; otherwise it serves from the first chunk in chain order
(most-recently-added first) whose `capacity - used` is at least `size`,
bumping only that chunk's `used` and returning the pointer at its old
offset; if no chunk fits, it prepends a fresh chunk of capacity
`max(size, chunk_size)` with `used = size` and returns its buffer start.
Stated as equality with the word-for-word spec-side description
`arenaAllocSpec`. -/
theorem C7_arena_alloc_first_fit (a : Option XArena) (size : Nat) :
    x_arena_alloc a size = arenaAllocSpec a size := by
  cases a with
  | none => rfl
  | some a =>
    simp only [x_arena_alloc, arenaAllocSpec]
    by_cases hz : size = 0
    · rw [if_pos hz, if_pos hz]
    · rw [if_neg hz, if_neg hz, allocScan_eq]
      rcases hidx : a.chunks.findIdx? (fun c => decide (size ≤ c.capacity - c.used))
        with _ | i
      · simp only [hidx]
        have hmax : (if size > a.chunk_size then size else a.chunk_size) =
            max size a.chunk_size := by
          rw [Nat.max_def]
          split
          · split <;> omega
          · split <;> omega
        rw [hmax]
      · simp only [hidx]

/-- C8: `x_arena_reset` zeroes every chunk's `used` counter and changes
nothing else — chunk count, order, capacities, buffer contents and the
arena's configured `chunk_size` are untouched. -/
theorem C8_arena_reset_only_used (a : XArena) :
    (x_arena_reset a).chunk_size = a.chunk_size ∧
    (x_arena_reset a).chunks.length = a.chunks.length ∧
    ∀ i, i < a.chunks.length →
      ((x_arena_reset a).chunks.getD i ⟨0, 0, []⟩).used = 0 ∧
      ((x_arena_reset a).chunks.getD i ⟨0, 0, []⟩).capacity =
        (a.chunks.getD i ⟨0, 0, []⟩).capacity ∧
      ((x_arena_reset a).chunks.getD i ⟨0, 0, []⟩).data =
        (a.chunks.getD i ⟨0, 0, []⟩).data := by
  refine ⟨rfl, by simp [x_arena_reset], ?_⟩
  intro i hi
  have h := getD_map (fun c => { c with used := 0 }) a.chunks i ⟨0, 0, []⟩ ⟨0, 0, []⟩ hi
  have hck : (x_arena_reset a).chunks = a.chunks.map (fun c => { c with used := 0 }) := rfl
  refine ⟨?_, ?_, ?_⟩ <;> rw [hck, h]

/-- Witness for C8 on a two-chunk arena with nonzero usage. -/
theorem C8_witness :
    0 < (XArena.mk 8 [⟨4, 3, [0, 0, 0, 0]⟩, ⟨8, 8, [1, 2, 3, 4, 5, 6, 7, 8]⟩]).chunks.length ∧
    ((x_arena_reset (XArena.mk 8
      [⟨4, 3, [0, 0, 0, 0]⟩, ⟨8, 8, [1, 2, 3, 4, 5, 6, 7, 8]⟩])).chunks.getD 0
        ⟨0, 0, []⟩).used = 0 ∧
    ((x_arena_reset (XArena.mk 8
      [⟨4, 3, [0, 0, 0, 0]⟩, ⟨8, 8, [1, 2, 3, 4, 5, 6, 7, 8]⟩])).chunks.getD 0
        ⟨0, 0, []⟩).capacity =
      ((XArena.mk 8 [⟨4, 3, [0, 0, 0, 0]⟩,
        ⟨8, 8, [1, 2, 3, 4, 5, 6, 7, 8]⟩]).chunks.getD 0 ⟨0, 0, []⟩).capacity :=
  ⟨by decide,
    ((C8_arena_reset_only_used _).2.2 0 (by decide)).1,
    ((C8_arena_reset_only_used _).2.2 0 (by decide)).2.1⟩

/-- C9: the probe loop shared by set/get/has/remove terminates on every
table state — including a fully occupied table with no matching slot — in
at most `capacity` probe steps: running `probeAux` with any iteration
budget of at least `capacity` gives the same result as `probe_index`
(which uses exactly `capacity`), because the loop breaks as soon as the
index returns to its start. -/
theorem C9_probe_terminates_within_capacity {K V : Type} (t : XHashtable K V)
    (k : K) (fuel : Nat) (hcap : 0 < t.capacity) (hfuel : t.capacity ≤ fuel) :
    probeAux t.entries t.capacity (t.hash_fn k % t.capacity) t.eq_fn k fuel
      (t.hash_fn k % t.capacity) = probe_index t k := by
  obtain ⟨s, hsdef⟩ : ∃ s, t.hash_fn k % t.capacity = s := ⟨_, rfl⟩
  have hs : s < t.capacity := hsdef ▸ Nat.mod_lt _ hcap
  have h1 := @probeAux_eq_scanIdx K V t.entries t.eq_fn k t.capacity s hs
    fuel 0 (by omega) (by omega)
  have h2 := @probeAux_eq_scanIdx K V t.entries t.eq_fn k t.capacity s hs
    t.capacity 0 (by omega) (by omega)
  rw [Nat.add_zero, Nat.mod_eq_of_lt hs] at h1 h2
  unfold probe_index
  rw [hsdef, h1, h2]

/-- Witness for C9 on a fully-occupied-bucket-free concrete table with a
surplus fuel budget. -/
theorem C9_witness :
    (0 < (runSets (fun n : Nat => n) (fun a b : Nat => a == b)
      [((1:Nat), (10:Nat)), (17, 20)]).capacity ∧
     (runSets (fun n : Nat => n) (fun a b : Nat => a == b)
      [((1:Nat), (10:Nat)), (17, 20)]).capacity ≤ 25) ∧
    probeAux (runSets (fun n : Nat => n) (fun a b : Nat => a == b)
        [((1:Nat), (10:Nat)), (17, 20)]).entries
      (runSets (fun n : Nat => n) (fun a b : Nat => a == b)
        [((1:Nat), (10:Nat)), (17, 20)]).capacity
      ((runSets (fun n : Nat => n) (fun a b : Nat => a == b)
        [((1:Nat), (10:Nat)), (17, 20)]).hash_fn 33 %
       (runSets (fun n : Nat => n) (fun a b : Nat => a == b)
        [((1:Nat), (10:Nat)), (17, 20)]).capacity)
      (runSets (fun n : Nat => n) (fun a b : Nat => a == b)
        [((1:Nat), (10:Nat)), (17, 20)]).eq_fn 33 25
      ((runSets (fun n : Nat => n) (fun a b : Nat => a == b)
        [((1:Nat), (10:Nat)), (17, 20)]).hash_fn 33 %
       (runSets (fun n : Nat => n) (fun a b : Nat => a == b)
        [((1:Nat), (10:Nat)), (17, 20)]).capacity) =
      probe_index (runSets (fun n : Nat => n) (fun a b : Nat => a == b)
        [((1:Nat), (10:Nat)), (17, 20)]) 33 :=
  ⟨⟨by decide, by decide⟩,
    C9_probe_terminates_within_capacity _ 33 25 (by decide) (by decide)⟩

/-- C10: a `remove` that returns `false` (key absent under the equality
function) leaves the table completely unchanged — entries, count and
capacity are identical — and issues no release through the allocator. -/
theorem C10_remove_notfound_no_effect {K V : Type} (t : XHashtable K V) (k : K)
    (h : (x_hashtable_remove t k).ok = false) :
    (x_hashtable_remove t k).table = t ∧
    (x_hashtable_remove t k).table.entries = t.entries ∧
    (x_hashtable_remove t k).table.count = t.count ∧
    (x_hashtable_remove t k).table.capacity = t.capacity ∧
    (x_hashtable_remove t k).released = 0 := by
  rcases hpr : probe_index t k with ⟨b, i⟩
  cases b
  · rw [remove_eq_notfound hpr]
    exact ⟨rfl, rfl, rfl, rfl, rfl⟩
  · rw [remove_eq_found hpr] at h
    exact absurd h (by simp)

/-- Witness for C10: removing an absent key from a one-entry table. -/
theorem C10_witness :
    (x_hashtable_remove (runSets (fun n : Nat => n) (fun a b : Nat => a == b)
      [((1:Nat), (10:Nat))]) 2).ok = false ∧
    (x_hashtable_remove (runSets (fun n : Nat => n) (fun a b : Nat => a == b)
      [((1:Nat), (10:Nat))]) 2).table.count =
      (runSets (fun n : Nat => n) (fun a b : Nat => a == b)
        [((1:Nat), (10:Nat))]).count ∧
    (x_hashtable_remove (runSets (fun n : Nat => n) (fun a b : Nat => a == b)
      [((1:Nat), (10:Nat))]) 2).released = 0 :=
  ⟨by decide,
    (C10_remove_notfound_no_effect _ 2 (by decide)).2.2.1,
    (C10_remove_notfound_no_effect _ 2 (by decide)).2.2.2.2⟩

end Stdx
